import Mathlib

/-!
Verification of the Prime Number Layer System (`layer_system.py`).

The development embeds the numeric core of the program:

* `sieve_of_eratosthenes` — boolean-table sieve, embedded with a functional
  marking table `ℕ → Bool`;
* `generate_primes` — sieve with the estimate-then-grow retry loop (the
  `while len(primes) < n` loop is embedded with an explicit fuel that is
  proved sufficient via Bertrand's postulate);
* `generate_composites` — linear trial-division scan from 4;
* `LayerSystem._compute_layers` — the per-prime decomposition with the
  used-endpoints accumulator and the void search loop;
* `verify_bijection` and `calculate_constant` — the statistics layer
  (floating-point values are modelled by `ℝ`, record ratios by `ℚ`).

Specification-side characterisations use `Nat.nth` / `Nat.count`.
-/

namespace PrimeLayer

/-- A composite number in the sense of the program: an integer `≥ 4` that is
not prime (this is exactly what `generate_composites`'s classification
accepts, see `is_composite_check_eq`). -/
def IsComposite (m : ℕ) : Prop := 4 ≤ m ∧ ¬ Nat.Prime m

instance (m : ℕ) : Decidable (IsComposite m) :=
  inferInstanceAs (Decidable (4 ≤ m ∧ ¬ Nat.Prime m))

/-- Integer square root (Python's `int(x ** 0.5)`, which agrees with the
integer square root at the magnitudes the program exercises).  It is defined
via `Nat.findGreatest` so that it evaluates inside the kernel;
`isqrt_eq_sqrt` identifies it with `Nat.sqrt`. -/
def isqrt (n : ℕ) : ℕ := Nat.findGreatest (fun i => i * i ≤ n) n

/-! ## The sieve (`sieve_of_eratosthenes`) -/

/-- Initial state of the sieve table `is_prime`: entries `0` and `1` are
`False`, all larger indices start `True`. -/
def sieveInit (j : ℕ) : Bool := decide (2 ≤ j)

/-- One step of the outer sieve loop: if entry `i` is still `True`, mark every
multiple of `i` in `[i*i, limit]` as `False`. -/
def sieveMark (limit : ℕ) (f : ℕ → Bool) (i : ℕ) : ℕ → Bool :=
  if f i then fun j => if i ∣ j ∧ i * i ≤ j ∧ j ≤ limit then false else f j
  else f

/-- The sieve table after the outer loop `for i in range(2, isqrt(limit)+1)`. -/
def sieveLoop (limit : ℕ) : ℕ → Bool :=
  (List.range' 2 (isqrt limit - 1)).foldl (sieveMark limit) sieveInit

/-- `sieve_of_eratosthenes(limit)`: all primes up to `limit`. -/
def sieve_of_eratosthenes (limit : ℕ) : List ℕ :=
  if limit < 2 then [] else (List.range' 2 (limit - 1)).filter (sieveLoop limit)

/-! ## `generate_primes` -/

/-- The retry loop of `generate_primes`: sieve with the current bound and, as
long as fewer than `n` primes were produced, multiply the bound by `1.5`
(`int(limit * 1.5)` is exactly `limit * 3 / 2`) and resieve.  The `fuel`
argument is only a termination device for the `while` loop; the theorem
`growPrimes_length_ge` shows the fuel used by `generate_primes` is never
exhausted. -/
def growPrimes (n : ℕ) : ℕ → ℕ → List ℕ
  | limit, 0 => sieve_of_eratosthenes limit
  | limit, fuel + 1 =>
    let ps := sieve_of_eratosthenes limit
    if ps.length < n then growPrimes n (limit * 3 / 2) fuel else ps

/-- Floor base-2 logarithm, defined with explicit fuel so that it evaluates
inside the kernel (used only in the bound estimate below). -/
def log2Aux : ℕ → ℕ → ℕ
  | 0, _ => 0
  | fuel + 1, n => if n < 2 then 0 else log2Aux fuel (n / 2) + 1

def log2floor (n : ℕ) : ℕ := log2Aux n n

/-- Initial sieve bound estimate of `generate_primes`.  For `n ≥ 6` the source
computes `int(n * (math.log(n) + math.log(math.log(n)) + 2))` in floating
point (and uses the fixed bound `15` for `n < 6`); the natural logarithm is
modelled here by the integer approximation `ln x ≈ 693 * log2floor x / 1000`.
The retry loop makes every theorem below independent of the estimate — see
`generate_primes_eq`, whose proof holds for an arbitrary starting bound — so
the approximation cannot affect any claim about the produced primes. -/
def initialLimit (n : ℕ) : ℕ :=
  if n < 6 then 15
  else n * (693 * log2floor n + 693 * log2floor (log2floor n) + 2000) / 1000

/-- `generate_primes(n)`: the first `n` primes (empty for `n ≤ 0`). -/
def generate_primes (n : ℕ) : List ℕ :=
  if n = 0 then [] else (growPrimes n (initialLimit n) (2 ^ (n + 1))).take n

/-! ## `generate_composites` -/

/-- The composite classification inside `generate_composites`'s scan loop:
numbers `< 2` and `2` itself are not composite, even numbers `> 2` are
composite, and an odd number is composite iff it has an odd divisor in
`[3, isqrt(num)]` (Python's `range(3, isqrt(num)+1, 2)` has
`(isqrt(num)-1)/2` elements). -/
def is_composite_check (num : ℕ) : Bool :=
  if num < 2 then false
  else if num = 2 then false
  else if num % 2 = 0 then true
  else (List.range' 3 ((isqrt num - 1) / 2) 2).any fun i => decide (num % i = 0)

/-- The scan loop of `generate_composites`: starting at `num`, append every
number classified composite until `need` of them are collected.  `fuel`
bounds the scan; `generate_composites` supplies `2 * n` which is proved
sufficient (`genCompAux_spec`). -/
def genCompAux : ℕ → ℕ → ℕ → List ℕ
  | 0, _, _ => []
  | fuel + 1, num, need =>
    if need = 0 then []
    else if is_composite_check num then num :: genCompAux fuel (num + 1) (need - 1)
    else genCompAux fuel (num + 1) need

/-- `generate_composites(n)`: the first `n` composite numbers, scanning up
from `4` (empty for `n ≤ 0`). -/
def generate_composites (n : ℕ) : List ℕ :=
  if n = 0 then [] else genCompAux (2 * n) 4 n

/-! ## The decomposition engine (`LayerSystem._compute_layers`) -/

/-- One decomposition record: the dictionary
`{'k', 'prime', 'void', 'sum', 'ratio'}` built by `_compute_layers`.
`sum` is the Python integer `p - v` (which may be negative for adversarial
inputs, hence `ℤ`); the float `ratio` is modelled exactly by `ℚ`. -/
structure LayerRecord where
  k : ℕ
  prime : ℕ
  void : ℕ
  sum : ℤ
  ratioVal : Option ℚ
deriving DecidableEq, Inhabited

/-- Build one record: `s = p - v`, `ratio = p / s if s > 0 else None`. -/
def mkRecord (k p v : ℕ) : LayerRecord :=
  { k := k, prime := p, void := v, sum := (p : ℤ) - (v : ℤ),
    ratioVal :=
      if 0 < (p : ℤ) - (v : ℤ) then some ((p : ℚ) / ((p : ℚ) - (v : ℚ))) else none }

/-- The void search loop `v = 1; while v in endpoints: v += 1`, with fuel.
Only membership in `endpoints` is ever inspected. -/
def findVoidAux (endpoints : List ℕ) : ℕ → ℕ → ℕ
  | 0, v => v
  | fuel + 1, v => if v ∈ endpoints then findVoidAux endpoints fuel (v + 1) else v

/-- The void assigned from a used-endpoints set: the first `v ≥ 1` with
`v ∉ endpoints`.  `endpoints.length + 1` probes always suffice
(`findVoid_spec`). -/
def findVoid (endpoints : List ℕ) : ℕ := findVoidAux endpoints (endpoints.length + 1) 1

/-- One iteration of the `for k, p in enumerate(self.primes, 1)` loop of
`_compute_layers`.  The used-endpoints set is modelled as a duplicate-free
`List ℕ` (`List.insert` is Python's `set.add`); only membership is read. -/
def layerStep (st : List ℕ × List LayerRecord) (kp : ℕ × ℕ) :
    List ℕ × List LayerRecord :=
  match st, kp with
  | (endpoints, acc), (k, p) =>
    if p = 2 then ((endpoints.insert 1).insert 2, acc ++ [mkRecord k 2 1])
    else if p = 3 then ((endpoints.insert 2).insert 3, acc ++ [mkRecord k 3 2])
    else
      ((endpoints.insert (findVoid endpoints)).insert p,
        acc ++ [mkRecord k p (findVoid endpoints)])

/-- The state (used-endpoints set, record list) after folding the per-prime
step over `enumerate(primes, 1)` from an empty set and empty results. -/
def layerFold (primes : List ℕ) : List ℕ × List LayerRecord :=
  (List.enumFrom 1 primes).foldl layerStep ([], [])

/-- `LayerSystem._compute_layers`: the record list produced by the fold. -/
def compute_layers (primes : List ℕ) : List LayerRecord :=
  (layerFold primes).2

/-- The intermediate state (used-endpoints set and records) of
`_compute_layers` after the first `m` primes have been processed. -/
def layerState (primes : List ℕ) (m : ℕ) : List ℕ × List LayerRecord :=
  layerFold (primes.take m)

/-- The analysis session object: `LayerSystem.__init__` generates the primes
and composites and immediately computes the records. -/
structure LayerSystem where
  n_primes : ℕ
  primes : List ℕ
  composites : List ℕ
  results : List LayerRecord
deriving DecidableEq

/-- `LayerSystem(n_primes)`: run the full pipeline. -/
def LayerSystem.init (n : ℕ) : LayerSystem :=
  { n_primes := n, primes := generate_primes n, composites := generate_composites n,
    results := compute_layers (generate_primes n) }

/-! ## `verify_bijection` -/

/-- The value returned by `verify_bijection`: total tested records (rank
`k ≥ 3`), match count, accuracy percentage, and the full mismatch list
(entries `(k, void, expected)`). -/
structure BijectionResult where
  total : ℕ
  -- the `matches` key of the returned dictionary (`matches` is reserved in Lean)
  matched : ℕ
  accuracy : ℚ
  mismatches : List (ℕ × ℕ × ℕ)
deriving DecidableEq

/-- `LayerSystem.verify_bijection`: for each record of rank `k ≥ 3` compare its
void against `composites[k-3]`; accuracy is `100 * matches / total` when any
record was tested, else `0`. -/
def verify_bijection (results : List LayerRecord) (composites : List ℕ) :
    BijectionResult :=
  let st := results.foldl
    (fun (st : ℕ × List (ℕ × ℕ × ℕ)) r =>
      if 3 ≤ r.k then
        if r.void = composites.getD (r.k - 3) 0 then (st.1 + 1, st.2)
        else (st.1, st.2 ++ [(r.k, r.void, composites.getD (r.k - 3) 0)])
      else st)
    (0, [])
  let total := (results.filter fun r => decide (3 ≤ r.k)).length
  { total := total
    matched := st.1
    accuracy := if 0 < total then 100 * (st.1 : ℚ) / (total : ℚ) else 0
    mismatches := st.2 }

/-! ## `calculate_constant` -/

/-- The empirical constant of one record:
`c = (P/S - 1) * ln(P) * ln(ln(P))`, modelled over `ℝ`. -/
noncomputable def cFormula (p : ℕ) (s : ℤ) : ℝ :=
  ((p : ℝ) / (s : ℝ) - 1) * Real.log (p : ℝ) * Real.log (Real.log (p : ℝ))

/-- The `constants` list built by the loop of `calculate_constant`: one value
for every record with `prime > min_prime` and `sum > 0`. -/
noncomputable def calcConstants (results : List LayerRecord) (min_prime : ℕ) :
    List ℝ :=
  results.foldl
    (fun acc r =>
      if (min_prime : ℕ) < r.prime ∧ 0 < r.sum then acc ++ [cFormula r.prime r.sum]
      else acc)
    []

/-- `LayerSystem.calculate_constant`: the return value of the source function —
the average of the qualifying constants, or `0.0` when none qualify.  The
population standard deviation is computed by the source only for display; it
is modelled separately by `calculate_constant_std` and is not part of this
return value. -/
noncomputable def calculate_constant (results : List LayerRecord) (min_prime : ℕ) :
    ℝ :=
  let constants := calcConstants results min_prime
  if constants.isEmpty then 0
  else constants.sum / (constants.length : ℝ)

/-- The local `std_dev` computed (and only printed) by `calculate_constant`:
the population standard deviation of the qualifying constants. -/
noncomputable def calculate_constant_std (results : List LayerRecord)
    (min_prime : ℕ) : ℝ :=
  let constants := calcConstants results min_prime
  let avg := constants.sum / (constants.length : ℝ)
  Real.sqrt ((constants.map fun c => (c - avg) ^ 2).sum / (constants.length : ℝ))

/-- Modelled from the spec: the interface
`calculate_constant(records, min_prime) -> (average, std_dev)` — §6 of the
specification requires the function to return both the average and the
population standard deviation.  The source function returns only the
average (a bare float); this definition packages what the spec's words
require so the two can be compared. -/
noncomputable def calculate_constant_spec (results : List LayerRecord)
    (min_prime : ℕ) : ℝ × ℝ :=
  (calculate_constant results min_prime, calculate_constant_std results min_prime)

/-! ## Specification-side characterisations -/

/-- All primes below `m`, in increasing order. -/
def primesUpTo (m : ℕ) : List ℕ := (List.range m).filter fun i => decide (Nat.Prime i)

/-- All composites below `m`, in increasing order. -/
def compositesUpTo (m : ℕ) : List ℕ :=
  (List.range m).filter fun i => decide (IsComposite i)

/-- Closed form of the void sequence: rank 1 gets `1`, rank 2 gets `2`, and
rank `i+1 ≥ 3` gets the `(i-2)`-th composite (0-indexed). -/
noncomputable def voidOf : ℕ → ℕ
  | 0 => 1
  | 1 => 2
  | i + 2 => Nat.nth IsComposite i

/-- Closed form of the record produced for the `(i+1)`-th prime. -/
noncomputable def recordOf (i : ℕ) : LayerRecord :=
  mkRecord (i + 1) (Nat.nth Nat.Prime i) (voidOf i)

/-- The used-endpoints set (as a set of naturals) after `m` primes have been
processed: `{1, …, voidOf (m-1)}` together with the first `m` primes. -/
noncomputable def endpointSet : ℕ → Set ℕ
  | 0 => ∅
  | 1 => {1, 2}
  | m + 2 => Set.Icc 1 (voidOf (m + 1)) ∪
      {q | Nat.Prime q ∧ q ≤ Nat.nth Nat.Prime (m + 1)}

/-- The ordered sequence of the first `n` primes (specification side). -/
noncomputable def primesSeq (n : ℕ) : List ℕ :=
  (List.range n).map (Nat.nth Nat.Prime)

/-- The ordered sequence of the first `n` composites (specification side). -/
noncomputable def compositesSeq (n : ℕ) : List ℕ :=
  (List.range n).map (Nat.nth IsComposite)

/-- The closed form of the record sequence produced by the engine. -/
noncomputable def specRecords (n : ℕ) : List LayerRecord :=
  (List.range n).map recordOf

/-! ## Lemmas: basic arithmetic helpers -/

theorem isqrt_eq_sqrt (n : ℕ) : isqrt n = Nat.sqrt n := by
  rw [isqrt, Nat.findGreatest_eq_iff]
  refine ⟨Nat.sqrt_le_self n, fun _ => Nat.sqrt_le n, fun k hk hkn hP => ?_⟩
  have := Nat.sqrt_lt.mp hk
  omega

/-! ## Lemmas: the void search -/

/-- Some positive integer lies outside any finite endpoints list. -/
theorem exists_gap (E : List ℕ) : ∃ v, 1 ≤ v ∧ v ∉ E := by
  refine ⟨E.toFinset.sup id + 1, by omega, fun hmem => ?_⟩
  have h2 := Finset.le_sup (f := id) (List.mem_toFinset.mpr hmem)
  simp only [id] at h2
  omega

theorem findVoidAux_eq (E : List ℕ) (m : ℕ) (hm : m ∉ E)
    (hmin : ∀ w, 1 ≤ w → w < m → w ∈ E) :
    ∀ fuel v, 1 ≤ v → v ≤ m → m ≤ v + fuel → findVoidAux E fuel v = m := by
  intro fuel
  induction fuel with
  | zero =>
    intro v _ h2 h3
    have : v = m := by omega
    simpa [findVoidAux] using this
  | succ fuel ih =>
    intro v h1 h2 h3
    by_cases hv : v = m
    · subst hv
      simp [findVoidAux, hm]
    · have hvm : v < m := lt_of_le_of_ne h2 hv
      have hve : v ∈ E := hmin v h1 hvm
      simp only [findVoidAux, if_pos hve]
      exact ih (v + 1) (by omega) (by omega) (by omega)

/-- `findVoid` returns the least positive integer not in the endpoints list. -/
theorem findVoid_spec (E : List ℕ) :
    1 ≤ findVoid E ∧ findVoid E ∉ E ∧
      ∀ w, 1 ≤ w → w < findVoid E → w ∈ E := by
  classical
  have hex : ∃ v, 1 ≤ v ∧ v ∉ E := exists_gap E
  set m := Nat.find hex with hmdef
  obtain ⟨hm1, hm2⟩ : 1 ≤ m ∧ m ∉ E := Nat.find_spec hex
  have hmin : ∀ w, 1 ≤ w → w < m → w ∈ E := by
    intro w h1 h2
    by_contra hw
    exact absurd (@Nat.find_le w _ _ hex ⟨h1, hw⟩) (by omega)
  have hsub : Finset.Ico 1 m ⊆ E.toFinset := by
    intro w hw
    rw [Finset.mem_Ico] at hw
    exact List.mem_toFinset.mpr (hmin w hw.1 hw.2)
  have hcard : m - 1 ≤ E.toFinset.card := by
    have := Finset.card_le_card hsub
    rwa [Nat.card_Ico] at this
  have hlen : E.toFinset.card ≤ E.length := List.toFinset_card_le E
  have heq : findVoid E = m :=
    findVoidAux_eq E m hm2 hmin (E.length + 1) 1 le_rfl hm1 (by omega)
  rw [heq]
  exact ⟨hm1, hm2, hmin⟩

/-- The void search depends only on the membership predicate of the endpoints
collection — not on the order (or multiplicity) in which the underlying
container enumerates its elements. -/
theorem findVoid_mem_ext (E1 E2 : List ℕ) (h : ∀ w, w ∈ E1 ↔ w ∈ E2) :
    findVoid E1 = findVoid E2 := by
  obtain ⟨ha1, ha2, ha3⟩ := findVoid_spec E1
  obtain ⟨hb1, hb2, hb3⟩ := findVoid_spec E2
  by_contra hne
  rcases Nat.lt_or_ge (findVoid E1) (findVoid E2) with hlt | hge
  · exact ha2 ((h _).mpr (hb3 _ ha1 hlt))
  · have hlt : findVoid E2 < findVoid E1 := lt_of_le_of_ne hge fun heq => hne heq.symm
    exact hb2 ((h _).mp (ha3 _ hb1 hlt))

/-- If the endpoints list has the same membership as a set `S`, the void
search returns the least positive integer outside `S`. -/
theorem findVoid_eq_of_memEquiv (E : List ℕ) (S : Set ℕ)
    (hES : ∀ w, w ∈ E ↔ w ∈ S) (m : ℕ) (hm1 : 1 ≤ m) (hm2 : m ∉ S)
    (hm3 : ∀ w, 1 ≤ w → w < m → w ∈ S) : findVoid E = m := by
  obtain ⟨ha1, ha2, ha3⟩ := findVoid_spec E
  by_contra hne
  rcases Nat.lt_or_ge (findVoid E) m with hlt | hge
  · exact ha2 ((hES _).mpr (hm3 _ ha1 hlt))
  · have hlt : m < findVoid E := lt_of_le_of_ne hge fun heq => hne heq.symm
    exact hm2 ((hES _).mp (ha3 _ hm1 hlt))

/-! ## Lemmas: composite classification and the composite scan -/

theorem is_composite_check_iff (num : ℕ) :
    is_composite_check num = true ↔ IsComposite num := by
  unfold is_composite_check
  rw [isqrt_eq_sqrt]
  by_cases h2 : num < 2
  · simp only [if_pos h2]
    constructor
    · intro h; exact absurd h (by simp)
    · intro h; exact absurd h.1 (by omega)
  · rw [if_neg h2]
    push_neg at h2
    by_cases heq2 : num = 2
    · subst heq2
      simp only [if_pos rfl]
      constructor
      · intro h; exact absurd h (by simp)
      · intro h; exact absurd h.1 (by omega)
    · rw [if_neg heq2]
      by_cases heven : num % 2 = 0
      · have h4 : 4 ≤ num := by omega
        have hnp : ¬ Nat.Prime num := by
          intro hp
          have := (Nat.Prime.even_iff hp).mp (Nat.even_iff.mpr heven)
          omega
        rw [if_pos heven]
        exact ⟨fun _ => ⟨h4, hnp⟩, fun _ => rfl⟩
      · rw [if_neg heven]
        rw [List.any_eq_true]
        constructor
        · rintro ⟨i, hi, hdvd⟩
          rw [List.mem_range'] at hi
          obtain ⟨t, ht, rfl⟩ := hi
          rw [decide_eq_true_eq] at hdvd
          have hstep : 3 + 2 * t ≤ Nat.sqrt num := by
            have h1 : t + 1 ≤ (Nat.sqrt num - 1) / 2 := ht
            have h2' : 2 * (t + 1) ≤ 2 * ((Nat.sqrt num - 1) / 2) := by omega
            have h3 : 2 * ((Nat.sqrt num - 1) / 2) ≤ Nat.sqrt num - 1 := by omega
            omega
          have hdvd' : (3 + 2 * t) ∣ num := Nat.dvd_of_mod_eq_zero hdvd
          have hsq : (3 + 2 * t) * (3 + 2 * t) ≤ num := Nat.le_sqrt.mp hstep
          have hlt : 3 + 2 * t < num := by nlinarith
          have hnp : ¬ Nat.Prime num := by
            intro hp
            rcases (Nat.Prime.eq_one_or_self_of_dvd hp _ hdvd') with h | h <;> omega
          exact ⟨by nlinarith, hnp⟩
        · rintro ⟨h4, hnp⟩
          have hodd : num % 2 = 1 := by omega
          set q := Nat.minFac num with hq
          have hqprime : Nat.Prime q := Nat.minFac_prime (by omega)
          have hqdvd : q ∣ num := Nat.minFac_dvd num
          have hqsq : q ^ 2 ≤ num := Nat.minFac_sq_le_self (by omega) hnp
          have hqodd : q % 2 = 1 := by
            rcases Nat.Prime.eq_two_or_odd hqprime with h | h
            · exfalso
              rw [h] at hqdvd
              omega
            · exact h
          have hq3 : 3 ≤ q := by
            have := hqprime.two_le
            omega
          have hqsqrt : q ≤ Nat.sqrt num := Nat.le_sqrt.mpr (by nlinarith)
          refine ⟨q, ?_, ?_⟩
          · rw [List.mem_range']
            refine ⟨(q - 3) / 2, by omega, by omega⟩
          · rw [decide_eq_true_eq]
            exact Nat.mod_eq_zero_of_dvd hqdvd

theorem is_composite_check_eq (num : ℕ) :
    is_composite_check num = decide (IsComposite num) := by
  by_cases h : IsComposite num
  · rw [(is_composite_check_iff num).mpr h, decide_eq_true h]
  · rw [decide_eq_false h]
    rcases Bool.eq_false_or_eq_true (is_composite_check num) with h1 | h1
    · exact absurd ((is_composite_check_iff num).mp h1) h
    · exact h1

/-! ## Lemmas: sieve correctness -/

/-- Invariant of the outer sieve loop: after the candidates `2, …, 1 + m` have
been processed, an entry `j` is still `True` iff `j ≥ 2` and no prime
`q ≤ 1 + m` with `q * q ≤ j` divides `j` (entries beyond `limit` are never
marked). -/
theorem sieveLoop_invariant (limit : ℕ) :
    ∀ m, 2 + m ≤ Nat.sqrt limit + 1 →
      ∀ j, ((List.range' 2 m).foldl (sieveMark limit) sieveInit) j = true ↔
        (2 ≤ j ∧ ¬ (j ≤ limit ∧
          ∃ q, Nat.Prime q ∧ q < 2 + m ∧ q ∣ j ∧ q * q ≤ j)) := by
  intro m
  induction m with
  | zero =>
    intro _ j
    simp only [List.range'_zero, List.foldl_nil, sieveInit, decide_eq_true_eq]
    constructor
    · intro h
      exact ⟨h, fun ⟨_, q, hq, hq2, _, _⟩ => absurd hq.two_le (by omega)⟩
    · exact And.left
  | succ m ih =>
    intro hm j
    have hm' : 2 + m ≤ Nat.sqrt limit + 1 := by omega
    have ihm := ih hm'
    have hconcat : List.range' 2 (m + 1) = List.range' 2 m ++ [2 + m] := by
      rw [List.range'_concat]
      simp
    rw [hconcat, List.foldl_append, List.foldl_cons, List.foldl_nil]
    set g := (List.range' 2 m).foldl (sieveMark limit) sieveInit with hg
    have hil : 2 + m ≤ limit := le_trans (by omega) (Nat.sqrt_le_self limit)
    have hgi : g (2 + m) = true ↔ Nat.Prime (2 + m) := by
      rw [ihm (2 + m)]
      constructor
      · rintro ⟨h2i, hno⟩
        by_contra hnp
        have hsq := Nat.minFac_sq_le_self (n := 2 + m) (by omega) hnp
        rw [pow_two] at hsq
        have h2q := (Nat.minFac_prime (n := 2 + m) (by omega)).two_le
        refine hno ⟨hil, Nat.minFac (2 + m), Nat.minFac_prime (by omega), ?_,
          Nat.minFac_dvd (2 + m), hsq⟩
        nlinarith
      · intro hp
        refine ⟨hp.two_le, ?_⟩
        rintro ⟨-, q, hq, hqlt, hqd, hqs⟩
        rcases hp.eq_one_or_self_of_dvd q hqd with h | h
        · exact absurd hq.two_le (by omega)
        · rw [h] at hqs
          have := hq.two_le
          nlinarith
    by_cases hgt : g (2 + m) = true
    · have hip : Nat.Prime (2 + m) := hgi.mp hgt
      simp only [sieveMark, if_pos hgt]
      by_cases hmark : (2 + m) ∣ j ∧ (2 + m) * (2 + m) ≤ j ∧ j ≤ limit
      · rw [if_pos hmark]
        simp only [Bool.false_eq_true, false_iff]
        rintro ⟨-, hno⟩
        exact hno ⟨hmark.2.2, 2 + m, hip, by omega, hmark.1, hmark.2.1⟩
      · rw [if_neg hmark, ihm j]
        constructor
        · rintro ⟨h2, hno⟩
          refine ⟨h2, ?_⟩
          rintro ⟨hjl, q, hq, hqlt, hqd, hqs⟩
          by_cases hqi : q = 2 + m
          · exact hmark ⟨hqi ▸ hqd, hqi ▸ hqs, hjl⟩
          · exact hno ⟨hjl, q, hq, by omega, hqd, hqs⟩
        · rintro ⟨h2, hno⟩
          refine ⟨h2, ?_⟩
          rintro ⟨hjl, q, hq, hqlt, hqd, hqs⟩
          exact hno ⟨hjl, q, hq, by omega, hqd, hqs⟩
    · have hinp : ¬ Nat.Prime (2 + m) := fun hp => hgt (hgi.mpr hp)
      simp only [sieveMark, if_neg hgt]
      rw [ihm j]
      constructor
      · rintro ⟨h2, hno⟩
        refine ⟨h2, ?_⟩
        rintro ⟨hjl, q, hq, hqlt, hqd, hqs⟩
        by_cases hqi : q = 2 + m
        · exact hinp (hqi ▸ hq)
        · exact hno ⟨hjl, q, hq, by omega, hqd, hqs⟩
      · rintro ⟨h2, hno⟩
        refine ⟨h2, ?_⟩
        rintro ⟨hjl, q, hq, hqlt, hqd, hqs⟩
        exact hno ⟨hjl, q, hq, by omega, hqd, hqs⟩

/-- After the full outer loop, entry `j` (for `2 ≤ j ≤ limit`) is `True` iff
`j` is prime. -/
theorem sieveLoop_eq (limit j : ℕ) (h2 : 2 ≤ j) (hj : j ≤ limit) :
    sieveLoop limit j = true ↔ Nat.Prime j := by
  have hl2 : 2 ≤ limit := le_trans h2 hj
  have hsq1 : 1 ≤ Nat.sqrt limit := Nat.sqrt_pos.mpr (by omega)
  unfold sieveLoop
  rw [isqrt_eq_sqrt]
  rw [sieveLoop_invariant limit (Nat.sqrt limit - 1) (by omega) j]
  constructor
  · rintro ⟨-, hno⟩
    by_contra hnp
    have hsq := Nat.minFac_sq_le_self (n := j) (by omega) hnp
    rw [pow_two] at hsq
    have h2q := (Nat.minFac_prime (n := j) (by omega)).two_le
    have hle : Nat.minFac j ≤ Nat.sqrt limit :=
      Nat.le_sqrt.mpr (le_trans hsq hj)
    exact hno ⟨hj, Nat.minFac j, Nat.minFac_prime (by omega), by omega,
      Nat.minFac_dvd j, hsq⟩
  · intro hp
    refine ⟨h2, ?_⟩
    rintro ⟨-, q, hq, hqlt, hqd, hqs⟩
    rcases hp.eq_one_or_self_of_dvd q hqd with h | h
    · exact absurd hq.two_le (by omega)
    · rw [h] at hqs
      have := hq.two_le
      nlinarith

/-- The sieve computes exactly the primes up to `limit`. -/
theorem sieve_eq_primesUpTo (limit : ℕ) :
    sieve_of_eratosthenes limit = primesUpTo (limit + 1) := by
  unfold sieve_of_eratosthenes primesUpTo
  by_cases hl : limit < 2
  · rw [if_pos hl]
    interval_cases limit <;> decide
  · rw [if_neg hl]
    push_neg at hl
    have hsplit : List.range (limit + 1) = List.range' 0 2 ++ List.range' 2 (limit - 1) := by
      rw [List.range_eq_range', List.range'_append]
      congr 1
      omega
    rw [hsplit, List.filter_append,
      show (List.range' 0 2).filter (fun i => decide (Nat.Prime i)) = [] from by decide,
      List.nil_append]
    refine (List.filter_congr ?_).symm
    intro x hx
    rw [List.mem_range'_1] at hx
    have h1 : sieveLoop limit x = true ↔ Nat.Prime x :=
      sieveLoop_eq limit x hx.1 (by omega)
    by_cases hp : Nat.Prime x
    · rw [decide_eq_true hp, h1.mpr hp]
    · rw [decide_eq_false hp]
      rcases Bool.eq_false_or_eq_true (sieveLoop limit x) with hb | hb
      · exact absurd (h1.mp hb) hp
      · exact hb.symm

/-! ## Lemmas: filtered ranges and `Nat.nth` -/

/-- The increasing enumeration of `{i < m | p i}` is an initial segment of
`Nat.nth p`. -/
theorem filter_range_eq_map_nth (p : ℕ → Prop) [DecidablePred p] (m : ℕ) :
    (List.range m).filter (fun i => decide (p i)) =
      (List.range (Nat.count p m)).map (Nat.nth p) := by
  induction m with
  | zero => simp
  | succ m ih =>
    rw [List.range_succ, List.filter_append, ih, Nat.count_succ]
    by_cases hp : p m
    · rw [if_pos hp, List.range_succ, List.map_append]
      simp [hp, Nat.nth_count hp]
    · rw [if_neg hp]
      simp [hp]

theorem genCompAux_eq_filter :
    ∀ fuel num need, genCompAux fuel num need =
      ((List.range' num fuel).filter is_composite_check).take need := by
  intro fuel
  induction fuel with
  | zero => intro num need; simp [genCompAux]
  | succ fuel ih =>
    intro num need
    rw [List.range'_succ]
    rcases Nat.eq_zero_or_pos need with h0 | hpos
    · subst h0; simp [genCompAux]
    · obtain ⟨d, rfl⟩ := Nat.exists_eq_succ_of_ne_zero (by omega : need ≠ 0)
      by_cases hc : is_composite_check num
      · simp [genCompAux, hc, ih, List.filter_cons]
      · simp [genCompAux, hc, ih, List.filter_cons]

/-! ## Lemmas: counting primes and composites -/

theorem isComposite_two_mul_add_four (i : ℕ) : IsComposite (2 * i + 4) := by
  refine ⟨by omega, fun hp => ?_⟩
  have := (Nat.Prime.even_iff hp).mp ⟨i + 2, by ring⟩
  omega

theorem isComposite_infinite : {m | IsComposite m}.Infinite :=
  Set.infinite_of_injective_forall_mem (f := fun i : ℕ => 2 * i + 4)
    (fun a b hab => by simp only [] at hab; omega)
    (fun i => isComposite_two_mul_add_four i)

/-! Wrappers around the `Nat.nth` API with eta-reduced predicates, so that
`omega` and `rw` treat occurrences uniformly. -/

theorem nth_prime_mem (i : ℕ) : Nat.Prime (Nat.nth Nat.Prime i) :=
  Nat.nth_mem_of_infinite Nat.infinite_setOf_prime i

theorem nth_comp_mem (j : ℕ) : IsComposite (Nat.nth IsComposite j) :=
  Nat.nth_mem_of_infinite isComposite_infinite j

theorem nth_prime_lt_iff {k n : ℕ} :
    Nat.nth Nat.Prime k < Nat.nth Nat.Prime n ↔ k < n :=
  Nat.nth_lt_nth Nat.infinite_setOf_prime

theorem nth_prime_le_iff {k n : ℕ} :
    Nat.nth Nat.Prime k ≤ Nat.nth Nat.Prime n ↔ k ≤ n :=
  Nat.nth_le_nth Nat.infinite_setOf_prime

theorem nth_comp_lt_iff {k n : ℕ} :
    Nat.nth IsComposite k < Nat.nth IsComposite n ↔ k < n :=
  Nat.nth_lt_nth isComposite_infinite

theorem nth_comp_le_iff {k n : ℕ} :
    Nat.nth IsComposite k ≤ Nat.nth IsComposite n ↔ k ≤ n :=
  Nat.nth_le_nth isComposite_infinite

theorem count_nth_prime (n : ℕ) :
    Nat.count Nat.Prime (Nat.nth Nat.Prime n) = n :=
  Nat.count_nth_of_infinite Nat.infinite_setOf_prime n

theorem count_nth_comp (n : ℕ) :
    Nat.count IsComposite (Nat.nth IsComposite n) = n :=
  Nat.count_nth_of_infinite isComposite_infinite n

theorem count_nth_succ_prime (n : ℕ) :
    Nat.count Nat.Prime (Nat.nth Nat.Prime n + 1) = n + 1 :=
  Nat.count_nth_succ_of_infinite Nat.infinite_setOf_prime n

theorem nth_prime_zero : Nat.nth Nat.Prime 0 = 2 := by
  have h := Nat.nth_count (p := Nat.Prime) Nat.prime_two
  rwa [show Nat.count Nat.Prime 2 = 0 from by decide] at h

theorem nth_prime_one : Nat.nth Nat.Prime 1 = 3 := by
  have h := Nat.nth_count (p := Nat.Prime) Nat.prime_three
  rwa [show Nat.count Nat.Prime 3 = 1 from by decide] at h

theorem nth_prime_two : Nat.nth Nat.Prime 2 = 5 := by
  have h := Nat.nth_count (p := Nat.Prime) Nat.prime_five
  rwa [show Nat.count Nat.Prime 5 = 2 from by decide] at h

theorem nth_comp_zero : Nat.nth IsComposite 0 = 4 := by
  have h := Nat.nth_count (p := IsComposite) (show IsComposite 4 from by decide)
  rwa [show Nat.count IsComposite 4 = 0 from by decide] at h

theorem nth_prime_ge_two (i : ℕ) : 2 ≤ Nat.nth Nat.Prime i :=
  (nth_prime_mem i).two_le

theorem nth_prime_ge_five {i : ℕ} (hi : 2 ≤ i) : 5 ≤ Nat.nth Nat.Prime i := by
  have h := nth_prime_le_iff.mpr hi
  rwa [nth_prime_two] at h

theorem nth_prime_odd {i : ℕ} (hi : 1 ≤ i) : Nat.nth Nat.Prime i % 2 = 1 := by
  have hge : 3 ≤ Nat.nth Nat.Prime i := by
    have h := nth_prime_le_iff.mpr hi
    rwa [nth_prime_one] at h
  rcases Nat.Prime.eq_two_or_odd (nth_prime_mem i) with h | h
  · omega
  · exact h

theorem nth_prime_ge_linear (i : ℕ) (hi : 1 ≤ i) :
    2 * i + 1 ≤ Nat.nth Nat.Prime i := by
  induction i with
  | zero => omega
  | succ i ih =>
    rcases Nat.eq_zero_or_pos i with rfl | hpos
    · norm_num [nth_prime_one]
    · have h1 := ih hpos
      have hlt : Nat.nth Nat.Prime i < Nat.nth Nat.Prime (i + 1) :=
        nth_prime_lt_iff.mpr (by omega)
      have ho1 := nth_prime_odd hpos
      have ho2 := nth_prime_odd (i := i + 1) (by omega)
      omega

theorem count_comp_ge (a : ℕ) : a ≤ Nat.count IsComposite (2 * a + 3) := by
  rw [Nat.count_eq_card_filter_range]
  calc a = (Finset.range a).card := (Finset.card_range a).symm
    _ ≤ _ := Finset.card_le_card_of_injOn (fun i => 2 * i + 4)
        (fun i hi => by
          rw [Finset.mem_range] at hi
          have hmem : 2 * i + 4 ∈ (Finset.range (2 * a + 3)).filter IsComposite := by
            rw [Finset.mem_filter, Finset.mem_range]
            exact ⟨by omega, isComposite_two_mul_add_four i⟩
          exact hmem)
        (fun x _ y _ h => by simp only [] at h; omega)

theorem nth_comp_le (j : ℕ) : Nat.nth IsComposite j ≤ 2 * j + 4 := by
  have h1 : j < Nat.count IsComposite (2 * (j + 1) + 3) := by
    have := count_comp_ge (j + 1)
    omega
  have := Nat.nth_lt_of_lt_count h1
  omega

theorem nth_comp_ge_four (j : ℕ) : 4 ≤ Nat.nth IsComposite j :=
  (nth_comp_mem j).1

theorem nth_comp_not_prime (j : ℕ) : ¬ Nat.Prime (Nat.nth IsComposite j) :=
  (nth_comp_mem j).2

/-- Every integer `≥ 2` is either prime or composite, so the two counts
partition `{2, …, m-1}`. -/
theorem count_prime_add_count_comp (m : ℕ) (hm : 2 ≤ m) :
    Nat.count Nat.Prime m + Nat.count IsComposite m = m - 2 := by
  induction m with
  | zero => omega
  | succ m ih =>
    rcases Nat.lt_or_ge m 2 with h2 | h2
    · have hm1 : m = 1 := by omega
      subst hm1
      decide
    · have ih' := ih h2
      rw [Nat.count_succ, Nat.count_succ]
      by_cases hp : Nat.Prime m
      · have hnc : ¬ IsComposite m := fun hc => hc.2 hp
        rw [if_pos hp, if_neg hnc]
        omega
      · have hc : IsComposite m := by
          refine ⟨?_, hp⟩
          have hm2 : m ≠ 2 := fun h => hp (h ▸ Nat.prime_two)
          have hm3 : m ≠ 3 := fun h => hp (h ▸ Nat.prime_three)
          omega
        rw [if_neg hp, if_pos hc]
        omega

theorem count_prime_nth_comp_le (j : ℕ) :
    Nat.count Nat.Prime (Nat.nth IsComposite j) ≤ j + 2 := by
  have h4 := nth_comp_ge_four j
  have hcc : Nat.count IsComposite (Nat.nth IsComposite j) = j :=
    count_nth_comp j
  have hsum := count_prime_add_count_comp (Nat.nth IsComposite j) (by omega)
  have hle := nth_comp_le j
  omega

/-- Every prime below the `j`-th composite is among the first `j + 2` primes. -/
theorem prime_lt_nth_comp {j q : ℕ} (hq : Nat.Prime q)
    (hlt : q < Nat.nth IsComposite j) : q ≤ Nat.nth Nat.Prime (j + 1) := by
  have h1 : Nat.count Nat.Prime q < Nat.count Nat.Prime (Nat.nth IsComposite j) :=
    Nat.count_strict_mono hq hlt
  have h2 := count_prime_nth_comp_le j
  have h4 : q = Nat.nth Nat.Prime (Nat.count Nat.Prime q) := (Nat.nth_count hq).symm
  rw [h4]
  exact nth_prime_le_iff.mpr (by omega)

/-- Integers strictly between consecutive composites are prime. -/
theorem prime_of_between_comp {j x : ℕ} (h1 : Nat.nth IsComposite j < x)
    (h2 : x < Nat.nth IsComposite (j + 1)) : Nat.Prime x := by
  by_contra hx
  have h4 : 4 ≤ x := by
    have := nth_comp_ge_four j
    omega
  have hle : x ≤ Nat.nth IsComposite j :=
    Nat.le_nth_of_lt_nth_succ h2 ⟨h4, hx⟩
  omega

/-! ## Lemmas: `generate_primes` -/

theorem sieve_length (L : ℕ) :
    (sieve_of_eratosthenes L).length = Nat.count Nat.Prime (L + 1) := by
  rw [sieve_eq_primesUpTo, primesUpTo, filter_range_eq_map_nth]
  simp

theorem growPrimes_eq_sieve (n : ℕ) :
    ∀ fuel limit, ∃ L, limit ≤ L ∧
      growPrimes n limit fuel = sieve_of_eratosthenes L := by
  intro fuel
  induction fuel with
  | zero => intro limit; exact ⟨limit, le_rfl, rfl⟩
  | succ fuel ih =>
    intro limit
    by_cases h : (sieve_of_eratosthenes limit).length < n
    · obtain ⟨L, hL1, hL2⟩ := ih (limit * 3 / 2)
      refine ⟨L, by omega, ?_⟩
      simp only [growPrimes, if_pos h]
      exact hL2
    · exact ⟨limit, le_rfl, by simp only [growPrimes, if_neg h]⟩

theorem growPrimes_length_ge (n : ℕ) :
    ∀ fuel limit, 2 ≤ limit → Nat.nth Nat.Prime (n - 1) ≤ limit + fuel → 1 ≤ n →
      n ≤ (growPrimes n limit fuel).length := by
  intro fuel
  induction fuel with
  | zero =>
    intro limit h2 hle hn
    have hcount : n ≤ Nat.count Nat.Prime (limit + 1) := by
      have hsucc := count_nth_succ_prime (n - 1)
      have hmono := Nat.count_monotone (p := Nat.Prime)
        (show Nat.nth Nat.Prime (n - 1) + 1 ≤ limit + 1 by omega)
      omega
    simpa [growPrimes, sieve_length] using hcount
  | succ fuel ih =>
    intro limit h2 hle hn
    by_cases h : (sieve_of_eratosthenes limit).length < n
    · have hrec : n ≤ (growPrimes n (limit * 3 / 2) fuel).length :=
        ih (limit * 3 / 2) (by omega) (by omega) hn
      simpa [growPrimes, h] using hrec
    · rw [show growPrimes n limit (fuel + 1) = sieve_of_eratosthenes limit from by
        simp [growPrimes, h]]
      omega

/-- Bertrand's postulate gives an explicit bound on the `k`-th prime, used
only to show the fuel of `generate_primes` suffices. -/
theorem nth_prime_le_two_pow (k : ℕ) : Nat.nth Nat.Prime k ≤ 2 ^ (k + 1) := by
  induction k with
  | zero => rw [nth_prime_zero]; norm_num
  | succ k ih =>
    have h2 := nth_prime_ge_two k
    obtain ⟨q, hq, hq1, hq2⟩ :=
      Nat.exists_prime_lt_and_le_two_mul (Nat.nth Nat.Prime k) (by omega)
    have hnth : Nat.nth Nat.Prime (k + 1) ≤ q := by
      by_contra hlt
      push_neg at hlt
      have := Nat.le_nth_of_lt_nth_succ hlt hq
      omega
    calc Nat.nth Nat.Prime (k + 1) ≤ q := hnth
      _ ≤ 2 * Nat.nth Nat.Prime k := hq2
      _ ≤ 2 * 2 ^ (k + 1) := by omega
      _ = 2 ^ (k + 1 + 1) := by ring

theorem initialLimit_ge_two (n : ℕ) : 2 ≤ initialLimit n := by
  unfold initialLimit
  by_cases h : n < 6
  · rw [if_pos h]
    omega
  · rw [if_neg h]
    push_neg at h
    have h1 : 6 * 2000 ≤
        n * (693 * log2floor n + 693 * log2floor (log2floor n) + 2000) :=
      Nat.mul_le_mul h (by omega)
    omega

/-- `generate_primes(n)` is exactly the first `n` primes, independently of the
floating-point bound estimate. -/
theorem generate_primes_eq (n : ℕ) : generate_primes n = primesSeq n := by
  rcases Nat.eq_zero_or_pos n with rfl | hn
  · simp [generate_primes, primesSeq]
  · unfold generate_primes
    rw [if_neg (by omega)]
    obtain ⟨L, hL1, hL2⟩ := growPrimes_eq_sieve n (2 ^ (n + 1)) (initialLimit n)
    have hlen : n ≤ (growPrimes n (initialLimit n) (2 ^ (n + 1))).length := by
      refine growPrimes_length_ge n (2 ^ (n + 1)) (initialLimit n)
        (initialLimit_ge_two n) ?_ hn
      have hb := nth_prime_le_two_pow (n - 1)
      have hpow : 2 ^ (n - 1 + 1) ≤ 2 ^ (n + 1) :=
        Nat.pow_le_pow_right (by omega) (by omega)
      have h2 := initialLimit_ge_two n
      omega
    rw [hL2] at hlen ⊢
    rw [sieve_eq_primesUpTo, primesUpTo, filter_range_eq_map_nth] at hlen ⊢
    rw [List.length_map, List.length_range] at hlen
    rw [primesSeq, ← List.map_take, List.take_range, inf_eq_left.mpr hlen]

/-! ## Lemmas: `generate_composites` -/

/-- `generate_composites(n)` is exactly the first `n` composites: the scan
window `[4, 4 + 2n)` always contains at least `n` composites (the even
numbers), so the fuel `2 * n` suffices. -/
theorem generate_composites_eq (n : ℕ) :
    generate_composites n = compositesSeq n := by
  rcases Nat.eq_zero_or_pos n with rfl | hn
  · simp [generate_composites, compositesSeq]
  · unfold generate_composites
    rw [if_neg (by omega), genCompAux_eq_filter]
    have hfc : (List.range' 4 (2 * n)).filter is_composite_check =
        (List.range (2 * n + 4)).filter fun i => decide (IsComposite i) := by
      have hsplit : List.range (2 * n + 4) =
          List.range' 0 4 ++ List.range' 4 (2 * n) := by
        rw [List.range_eq_range', List.range'_append]
      rw [hsplit, List.filter_append,
        show (List.range' 0 4).filter (fun i => decide (IsComposite i)) = []
          from by decide,
        List.nil_append]
      exact (List.filter_congr fun x _ => is_composite_check_eq x)
    rw [hfc, filter_range_eq_map_nth]
    have hcnt : n ≤ Nat.count IsComposite (2 * n + 4) := by
      have h1 := count_comp_ge n
      have hmono := Nat.count_monotone (p := IsComposite)
        (show 2 * n + 3 ≤ 2 * n + 4 by omega)
      omega
    rw [compositesSeq, ← List.map_take, List.take_range, inf_eq_left.mpr hcnt]

/-! ## Lemmas: the decomposition invariant -/

theorem voidOf_pos (i : ℕ) : 1 ≤ voidOf i := by
  match i with
  | 0 => exact le_rfl
  | 1 => norm_num [voidOf]
  | i + 2 =>
    have := nth_comp_ge_four i
    simp only [voidOf]
    omega

theorem voidOf_ge_two (m : ℕ) : 2 ≤ voidOf (m + 1) := by
  match m with
  | 0 => norm_num [voidOf]
  | t + 1 =>
    have := nth_comp_ge_four t
    have hv : voidOf (t + 1 + 1) = Nat.nth IsComposite t := rfl
    omega

theorem voidOf_lt_nth_comp (m : ℕ) : voidOf (m + 1) < Nat.nth IsComposite m := by
  match m with
  | 0 =>
    have := nth_comp_ge_four 0
    norm_num [voidOf]
    omega
  | t + 1 =>
    have hv : voidOf (t + 1 + 1) = Nat.nth IsComposite t := rfl
    have := nth_comp_lt_iff.mpr (show t < t + 1 by omega)
    omega

theorem voidOf_lt_nth_prime (i : ℕ) : voidOf i < Nat.nth Nat.Prime i := by
  match i with
  | 0 =>
    rw [nth_prime_zero]
    norm_num [voidOf]
  | 1 =>
    rw [nth_prime_one]
    norm_num [voidOf]
  | m + 2 =>
    have h1 : Nat.nth IsComposite m ≤ 2 * m + 4 := nth_comp_le m
    have h2 : 2 * (m + 2) + 1 ≤ Nat.nth Nat.Prime (m + 2) :=
      nth_prime_ge_linear (m + 2) (by omega)
    have hv : voidOf (m + 2) = Nat.nth IsComposite m := rfl
    omega

theorem prime_le_nth_cases {i w : ℕ} (hp : Nat.Prime w)
    (hle : w ≤ Nat.nth Nat.Prime (i + 1)) :
    w = Nat.nth Nat.Prime (i + 1) ∨ w ≤ Nat.nth Nat.Prime i := by
  rcases eq_or_lt_of_le hle with h | h
  · exact Or.inl h
  · exact Or.inr (Nat.le_nth_of_lt_nth_succ h hp)

theorem mem_endpointSet_succ_succ {m w : ℕ} :
    w ∈ endpointSet (m + 2) ↔
      (1 ≤ w ∧ w ≤ voidOf (m + 1)) ∨
        (Nat.Prime w ∧ w ≤ Nat.nth Nat.Prime (m + 1)) := by
  show w ∈ Set.Icc 1 (voidOf (m + 1)) ∪
      {q | Nat.Prime q ∧ q ≤ Nat.nth Nat.Prime (m + 1)} ↔ _
  rw [Set.mem_union, Set.mem_Icc, Set.mem_setOf_eq]

/-- The mex computation at rank `m + 3`: over the endpoint set left by the
first `m + 2` primes, the least free positive integer is the `m`-th
composite (0-indexed), i.e. `C_(k-2)` at rank `k = m + 3`. -/
theorem mex_endpointSet (m : ℕ) :
    Nat.nth IsComposite m ∉ endpointSet (m + 2) ∧
      ∀ w, 1 ≤ w → w < Nat.nth IsComposite m → w ∈ endpointSet (m + 2) := by
  constructor
  · rw [mem_endpointSet_succ_succ]
    rintro (⟨h1, h2⟩ | ⟨hp, hle⟩)
    · have := voidOf_lt_nth_comp m
      omega
    · exact nth_comp_not_prime m hp
  · intro w h1 hlt
    rw [mem_endpointSet_succ_succ]
    by_cases hle : w ≤ voidOf (m + 1)
    · exact Or.inl ⟨h1, hle⟩
    · push_neg at hle
      by_cases hp : Nat.Prime w
      · exact Or.inr ⟨hp, prime_lt_nth_comp hp hlt⟩
      · exfalso
        have h3 : 2 ≤ w := by
          have := voidOf_ge_two m
          omega
        have h4 : 4 ≤ w := by
          have hw2 : w ≠ 2 := fun h => hp (h ▸ Nat.prime_two)
          have hw3 : w ≠ 3 := fun h => hp (h ▸ Nat.prime_three)
          omega
        cases m with
        | zero =>
          rw [nth_comp_zero] at hlt
          omega
        | succ t =>
          have hle2 : w ≤ Nat.nth IsComposite t :=
            Nat.le_nth_of_lt_nth_succ hlt ⟨h4, hp⟩
          have hv : voidOf (t + 1 + 1) = Nat.nth IsComposite t := rfl
          omega

/-- Inserting the found void (the `m`-th composite) and the current prime into
the endpoint set of rank `m + 2` gives the endpoint set of rank `m + 3`. -/
theorem endpointSet_step (m w : ℕ) :
    (w = Nat.nth Nat.Prime (m + 2) ∨ w = Nat.nth IsComposite m ∨
        w ∈ endpointSet (m + 2)) ↔ w ∈ endpointSet (m + 3) := by
  have hv2 : voidOf (m + 2) = Nat.nth IsComposite m := rfl
  have hrw : w ∈ endpointSet (m + 3) ↔
      (1 ≤ w ∧ w ≤ voidOf (m + 2)) ∨
        (Nat.Prime w ∧ w ≤ Nat.nth Nat.Prime (m + 2)) :=
    mem_endpointSet_succ_succ (m := m + 1)
  rw [hrw]
  constructor
  · rintro (rfl | rfl | h)
    · exact Or.inr ⟨nth_prime_mem (m + 2), le_rfl⟩
    · refine Or.inl ⟨?_, ?_⟩
      · have := nth_comp_ge_four m
        omega
      · rw [hv2]
    · rw [mem_endpointSet_succ_succ] at h
      rcases h with ⟨h1, h2⟩ | ⟨hp, hle⟩
      · refine Or.inl ⟨h1, ?_⟩
        have := voidOf_lt_nth_comp m
        omega
      · exact Or.inr ⟨hp, le_trans hle (nth_prime_le_iff.mpr (by omega))⟩
  · rintro (⟨h1, h2⟩ | ⟨hp, hle⟩)
    · rw [hv2] at h2
      rcases eq_or_lt_of_le h2 with heq | hlt
      · exact Or.inr (Or.inl heq)
      · exact Or.inr (Or.inr ((mex_endpointSet m).2 w h1 hlt))
    · rcases prime_le_nth_cases (i := m + 1) hp hle with h | h
      · exact Or.inl h
      · refine Or.inr (Or.inr ?_)
        rw [mem_endpointSet_succ_succ]
        exact Or.inr ⟨hp, h⟩

theorem layerStep_def (E : List ℕ) (acc : List LayerRecord) (k p : ℕ) :
    layerStep (E, acc) (k, p) =
      if p = 2 then ((E.insert 1).insert 2, acc ++ [mkRecord k 2 1])
      else if p = 3 then ((E.insert 2).insert 3, acc ++ [mkRecord k 3 2])
      else ((E.insert (findVoid E)).insert p,
        acc ++ [mkRecord k p (findVoid E)]) := rfl

theorem specRecords_succ (n : ℕ) :
    specRecords (n + 1) = specRecords n ++ [recordOf n] := by
  rw [specRecords, specRecords, List.range_succ, List.map_append]
  rfl

/-- Main invariant of `_compute_layers` on the genuine prime sequence: after
`n` primes the fold has produced exactly the closed-form records
`specRecords n`, and the used-endpoints list has exactly the membership of
`endpointSet n`. -/
theorem layerFold_succ (n : ℕ) :
    layerFold (primesSeq (n + 1)) =
      layerStep (layerFold (primesSeq n)) (n + 1, Nat.nth Nat.Prime n) := by
  have hlen : (primesSeq n).length = n := by simp [primesSeq]
  have h1 : primesSeq (n + 1) = primesSeq n ++ [Nat.nth Nat.Prime n] := by
    rw [primesSeq, primesSeq, List.range_succ, List.map_append]
    rfl
  rw [layerFold, h1, List.enumFrom_append, List.foldl_append, hlen,
    Nat.add_comm 1 n]
  rfl

theorem layerFold_spec (n : ℕ) :
    (layerFold (primesSeq n)).2 = specRecords n ∧
      ∀ w, w ∈ (layerFold (primesSeq n)).1 ↔ w ∈ endpointSet n := by
  induction n with
  | zero =>
    constructor
    · rfl
    · intro w
      constructor
      · intro h
        simp [layerFold, primesSeq] at h
      · intro h
        simp [endpointSet] at h
  | succ n ih =>
    obtain ⟨ihR, ihE⟩ := ih
    have hstep := layerFold_succ n
    set st := layerFold (primesSeq n) with hst
    have hpair : st = (st.1, st.2) := rfl
    rw [hstep, hpair, layerStep_def]
    rcases n with _ | (_ | m)
    · -- rank 1: the hard-coded branch for the prime 2
      rw [nth_prime_zero, if_pos rfl]
      refine ⟨?_, ?_⟩
      · show st.2 ++ [mkRecord (0 + 1) 2 1] = specRecords (0 + 1)
        rw [ihR, specRecords_succ 0]
        simp [recordOf, voidOf, nth_prime_zero]
      · intro w
        show w ∈ (st.1.insert 1).insert 2 ↔ w ∈ endpointSet (0 + 1)
        rw [List.mem_insert_iff, List.mem_insert_iff, ihE w]
        constructor
        · rintro (rfl | rfl | h)
          · simp [endpointSet]
          · simp [endpointSet]
          · exact absurd h (by simp [endpointSet])
        · intro h
          have h2 : w = 1 ∨ w = 2 := by simpa [endpointSet] using h
          rcases h2 with rfl | rfl
          · exact Or.inr (Or.inl rfl)
          · exact Or.inl rfl
    · -- rank 2: the hard-coded branch for the prime 3
      rw [nth_prime_one, if_neg (by norm_num), if_pos rfl]
      refine ⟨?_, ?_⟩
      · show st.2 ++ [mkRecord (1 + 1) 3 2] = specRecords (1 + 1)
        rw [ihR, specRecords_succ 1]
        simp [recordOf, voidOf, nth_prime_one]
      · intro w
        show w ∈ (st.1.insert 2).insert 3 ↔ w ∈ endpointSet (0 + 2)
        rw [List.mem_insert_iff, List.mem_insert_iff, ihE w,
          mem_endpointSet_succ_succ]
        constructor
        · rintro (rfl | rfl | h)
          · exact Or.inr ⟨Nat.prime_three, by rw [nth_prime_one]⟩
          · refine Or.inl ⟨by norm_num, ?_⟩
            norm_num [voidOf]
          · have h2 : w = 1 ∨ w = 2 := by simpa [endpointSet] using h
            have hv : voidOf (0 + 1) = 2 := rfl
            rcases h2 with rfl | rfl
            · exact Or.inl ⟨le_rfl, by omega⟩
            · exact Or.inl ⟨by norm_num, by omega⟩
        · rintro (⟨ha, hb⟩ | ⟨hp, hle⟩)
          · have hv : voidOf (0 + 1) = 2 := rfl
            have h2 : w = 1 ∨ w = 2 := by omega
            rcases h2 with rfl | rfl
            · exact Or.inr (Or.inr (by simp [endpointSet]))
            · exact Or.inr (Or.inr (by simp [endpointSet]))
          · rw [nth_prime_one] at hle
            have h2 := hp.two_le
            have h3 : w = 2 ∨ w = 3 := by omega
            rcases h3 with rfl | rfl
            · exact Or.inr (Or.inl rfl)
            · exact Or.inl rfl
    · -- rank m + 3: the generic branch with the void search
      have hp5 : 5 ≤ Nat.nth Nat.Prime (m + 1 + 1) := nth_prime_ge_five (by omega)
      rw [if_neg (by omega), if_neg (by omega)]
      have hvoid : findVoid st.1 = Nat.nth IsComposite m :=
        findVoid_eq_of_memEquiv st.1 (endpointSet (m + 2)) ihE
          (Nat.nth IsComposite m) (by have := nth_comp_ge_four m; omega)
          (mex_endpointSet m).1 (mex_endpointSet m).2
      rw [hvoid]
      refine ⟨?_, ?_⟩
      · show st.2 ++ [mkRecord (m + 2 + 1) (Nat.nth Nat.Prime (m + 2))
            (Nat.nth IsComposite m)] = specRecords (m + 2 + 1)
        rw [ihR, specRecords_succ (m + 2)]
        rfl
      · intro w
        show w ∈ (st.1.insert (Nat.nth IsComposite m)).insert
            (Nat.nth Nat.Prime (m + 2)) ↔ w ∈ endpointSet (m + 2 + 1)
        rw [List.mem_insert_iff, List.mem_insert_iff, ihE w]
        exact endpointSet_step m w

/-! ## Lemmas: pipeline corollaries -/

/-- The record list of the pipeline in closed form. -/
theorem compute_layers_eq (n : ℕ) :
    compute_layers (generate_primes n) = specRecords n := by
  rw [compute_layers, generate_primes_eq]
  exact (layerFold_spec n).1

theorem layerState_eq {n : ℕ} (m : ℕ) (hm : m ≤ n) :
    layerState (generate_primes n) m = layerFold (primesSeq m) := by
  rw [layerState, generate_primes_eq]
  congr 1
  rw [primesSeq, primesSeq, ← List.map_take, List.take_range, inf_eq_left.mpr hm]

theorem voidOf_le_succ (i : ℕ) : voidOf i ≤ voidOf (i + 1) := by
  match i with
  | 0 => norm_num [voidOf]
  | 1 =>
    have := nth_comp_ge_four 0
    have hv : voidOf (1 + 1) = Nat.nth IsComposite 0 := rfl
    have hv1 : voidOf 1 = 2 := rfl
    omega
  | m + 2 =>
    have hv : voidOf (m + 2) = Nat.nth IsComposite m := rfl
    have hv2 : voidOf (m + 2 + 1) = Nat.nth IsComposite (m + 1) := rfl
    have := nth_comp_le_iff.mpr (show m ≤ m + 1 by omega)
    omega

theorem voidOf_mono : Monotone voidOf :=
  monotone_nat_of_le_succ voidOf_le_succ

theorem specRecords_getD {n i : ℕ} (hi : i < n) :
    (specRecords n).getD i default = recordOf i := by
  rw [specRecords]
  simp [List.getD_eq_getElem?_getD, List.getElem?_map, List.getElem?_range, hi]

theorem compositesSeq_getD {n j : ℕ} (hj : j < n) :
    (compositesSeq n).getD j 0 = Nat.nth IsComposite j := by
  rw [compositesSeq]
  simp [List.getD_eq_getElem?_getD, List.getElem?_map, List.getElem?_range, hj]

theorem voidOf_eq_nth {i : ℕ} (hi : 2 ≤ i) :
    voidOf i = Nat.nth IsComposite (i - 2) := by
  obtain ⟨m, rfl⟩ : ∃ m, i = m + 2 := ⟨i - 2, by omega⟩
  rfl

theorem mem_specRecords {n : ℕ} {r : LayerRecord} :
    r ∈ specRecords n ↔ ∃ i, i < n ∧ recordOf i = r := by
  rw [specRecords, List.mem_map]
  constructor
  · rintro ⟨i, hi, hr⟩
    exact ⟨i, List.mem_range.mp hi, hr⟩
  · rintro ⟨i, hi, hr⟩
    exact ⟨i, List.mem_range.mpr hi, hr⟩

theorem recordOf_sum_pos (i : ℕ) : 0 < (recordOf i).sum := by
  have hlt := voidOf_lt_nth_prime i
  show (0 : ℤ) < (Nat.nth Nat.Prime i : ℤ) - (voidOf i : ℤ)
  have : (voidOf i : ℤ) < (Nat.nth Nat.Prime i : ℤ) := by exact_mod_cast hlt
  omega

theorem recordOf_ratio (i : ℕ) :
    (recordOf i).ratioVal =
      some (((recordOf i).prime : ℚ) / ((recordOf i).sum : ℚ)) := by
  have hpos : (0 : ℤ) < (Nat.nth Nat.Prime i : ℤ) - (voidOf i : ℤ) :=
    recordOf_sum_pos i
  show (if 0 < (Nat.nth Nat.Prime i : ℤ) - (voidOf i : ℤ) then
      some ((Nat.nth Nat.Prime i : ℚ) /
        ((Nat.nth Nat.Prime i : ℚ) - (voidOf i : ℚ))) else none) = _
  rw [if_pos hpos]
  show some ((Nat.nth Nat.Prime i : ℚ) /
      ((Nat.nth Nat.Prime i : ℚ) - (voidOf i : ℚ))) =
    some ((Nat.nth Nat.Prime i : ℚ) /
      ((((Nat.nth Nat.Prime i : ℤ) - (voidOf i : ℤ)) : ℤ) : ℚ))
  have hcast : ((((Nat.nth Nat.Prime i : ℤ) - (voidOf i : ℤ)) : ℤ) : ℚ) =
      (Nat.nth Nat.Prime i : ℚ) - (voidOf i : ℚ) := by
    push_cast
    ring
  rw [hcast]

/-- The records appended by the engine are always built by `mkRecord`. -/
theorem layerStep_snd (st : List ℕ × List LayerRecord) (kp : ℕ × ℕ) :
    ∃ v : ℕ, (layerStep st kp).2 = st.2 ++ [mkRecord kp.1 kp.2 v] := by
  rcases st with ⟨E, acc⟩
  rcases kp with ⟨k, p⟩
  rw [layerStep_def]
  by_cases h2 : p = 2
  · subst h2
    exact ⟨1, by rw [if_pos rfl]⟩
  · by_cases h3 : p = 3
    · subst h3
      exact ⟨2, by rw [if_neg (by norm_num), if_pos rfl]⟩
    · exact ⟨findVoid E, by rw [if_neg h2, if_neg h3]⟩

theorem layerFold_records_shape :
    ∀ (l : List (ℕ × ℕ)) (st : List ℕ × List LayerRecord) (r : LayerRecord),
      r ∈ (l.foldl layerStep st).2 →
        r ∈ st.2 ∨ ∃ k p v, r = mkRecord k p v := by
  intro l
  induction l with
  | nil => intro st r hr; exact Or.inl hr
  | cons kp l ih =>
    intro st r hr
    rw [List.foldl_cons] at hr
    rcases ih (layerStep st kp) r hr with h | h
    · obtain ⟨v, hv⟩ := layerStep_snd st kp
      rw [hv] at h
      rcases List.mem_append.mp h with h2 | h2
      · exact Or.inl h2
      · exact Or.inr ⟨kp.1, kp.2, v, (List.mem_singleton.mp h2)⟩
    · exact Or.inr h

theorem compute_layers_shape (primes : List ℕ) (r : LayerRecord)
    (hr : r ∈ compute_layers primes) : ∃ k p v, r = mkRecord k p v := by
  rw [compute_layers, layerFold] at hr
  rcases layerFold_records_shape _ _ _ hr with h | h
  · exact absurd h (List.not_mem_nil r)
  · exact h

theorem mkRecord_ratio_pos {k p v : ℕ} (hs : 0 < (mkRecord k p v).sum) :
    (mkRecord k p v).ratioVal =
      some (((mkRecord k p v).prime : ℚ) / ((mkRecord k p v).sum : ℚ)) := by
  have hs2 : (0 : ℤ) < (p : ℤ) - (v : ℤ) := hs
  show (if 0 < (p : ℤ) - (v : ℤ) then
      some ((p : ℚ) / ((p : ℚ) - (v : ℚ))) else none) = _
  rw [if_pos hs2]
  show some ((p : ℚ) / ((p : ℚ) - (v : ℚ))) =
    some ((p : ℚ) / ((((p : ℤ) - (v : ℤ)) : ℤ) : ℚ))
  have hcast : ((((p : ℤ) - (v : ℤ)) : ℤ) : ℚ) = (p : ℚ) - (v : ℚ) := by
    push_cast
    ring
  rw [hcast]

theorem mkRecord_ratio_nonpos {k p v : ℕ} (hs : (mkRecord k p v).sum ≤ 0) :
    (mkRecord k p v).ratioVal = none := by
  have hs2 : (p : ℤ) - (v : ℤ) ≤ 0 := hs
  show (if 0 < (p : ℤ) - (v : ℤ) then
      some ((p : ℚ) / ((p : ℚ) - (v : ℚ))) else none) = _
  rw [if_neg (not_lt.mpr hs2)]

/-! ## Lemmas: `verify_bijection` and `calculate_constant` folds -/

theorem bijFold_eq (composites : List ℕ) :
    ∀ (l : List LayerRecord) (m0 : ℕ) (ms0 : List (ℕ × ℕ × ℕ)),
      l.foldl (fun (st : ℕ × List (ℕ × ℕ × ℕ)) r =>
          if 3 ≤ r.k then
            if r.void = composites.getD (r.k - 3) 0 then (st.1 + 1, st.2)
            else (st.1, st.2 ++ [(r.k, r.void, composites.getD (r.k - 3) 0)])
          else st) (m0, ms0) =
        (m0 + (l.filter fun r => decide (3 ≤ r.k) &&
            decide (r.void = composites.getD (r.k - 3) 0)).length,
          ms0 ++ (l.filter fun r => decide (3 ≤ r.k) &&
            decide (¬ r.void = composites.getD (r.k - 3) 0)).map
              fun r => (r.k, r.void, composites.getD (r.k - 3) 0)) := by
  intro l
  induction l with
  | nil =>
    intro m0 ms0
    simp
  | cons r l ih =>
    intro m0 ms0
    rw [List.foldl_cons]
    by_cases h3 : 3 ≤ r.k
    · by_cases hv : r.void = composites.getD (r.k - 3) 0
      · have hc1 : (decide (3 ≤ r.k) &&
            decide (r.void = composites.getD (r.k - 3) 0)) = true := by
          rw [Bool.and_eq_true, decide_eq_true_eq, decide_eq_true_eq]
          exact ⟨h3, hv⟩
        have hc2 : ¬ ((decide (3 ≤ r.k) &&
            decide (¬ r.void = composites.getD (r.k - 3) 0)) = true) := by
          rw [Bool.and_eq_true, decide_eq_true_eq, decide_eq_true_eq]
          rintro ⟨-, hneg⟩
          exact hneg hv
        rw [if_pos h3, if_pos hv, ih, List.filter_cons, List.filter_cons,
          if_pos hc1, if_neg hc2]
        simp only [Prod.mk.injEq, List.length_cons]
        exact ⟨by omega, trivial⟩
      · have hc1 : ¬ ((decide (3 ≤ r.k) &&
            decide (r.void = composites.getD (r.k - 3) 0)) = true) := by
          rw [Bool.and_eq_true, decide_eq_true_eq, decide_eq_true_eq]
          rintro ⟨-, heq⟩
          exact hv heq
        have hc2 : (decide (3 ≤ r.k) &&
            decide (¬ r.void = composites.getD (r.k - 3) 0)) = true := by
          rw [Bool.and_eq_true, decide_eq_true_eq, decide_eq_true_eq]
          exact ⟨h3, hv⟩
        rw [if_pos h3, if_neg hv, ih, List.filter_cons, List.filter_cons,
          if_neg hc1, if_pos hc2, List.map_cons, List.append_assoc]
        simp only [Prod.mk.injEq, List.singleton_append]
    · have hc1 : ¬ ((decide (3 ≤ r.k) &&
          decide (r.void = composites.getD (r.k - 3) 0)) = true) := by
        rw [Bool.and_eq_true, decide_eq_true_eq, decide_eq_true_eq]
        rintro ⟨hk, -⟩
        exact h3 hk
      have hc2 : ¬ ((decide (3 ≤ r.k) &&
          decide (¬ r.void = composites.getD (r.k - 3) 0)) = true) := by
        rw [Bool.and_eq_true, decide_eq_true_eq, decide_eq_true_eq]
        rintro ⟨hk, -⟩
        exact h3 hk
      rw [if_neg h3, ih, List.filter_cons, List.filter_cons,
        if_neg hc1, if_neg hc2]

theorem verify_bijection_eq (results : List LayerRecord) (composites : List ℕ) :
    verify_bijection results composites =
      { total := (results.filter fun r => decide (3 ≤ r.k)).length
        matched := (results.filter fun r => decide (3 ≤ r.k) &&
          decide (r.void = composites.getD (r.k - 3) 0)).length
        accuracy :=
          if 0 < (results.filter fun r => decide (3 ≤ r.k)).length then
            100 * ((results.filter fun r => decide (3 ≤ r.k) &&
                decide (r.void = composites.getD (r.k - 3) 0)).length : ℚ) /
              (((results.filter fun r => decide (3 ≤ r.k)).length : ℕ) : ℚ)
          else 0
        mismatches := (results.filter fun r => decide (3 ≤ r.k) &&
            decide (¬ r.void = composites.getD (r.k - 3) 0)).map
          fun r => (r.k, r.void, composites.getD (r.k - 3) 0) } := by
  rw [verify_bijection, bijFold_eq composites results 0 []]
  simp only [Nat.zero_add, List.nil_append]

theorem calcConstants_eq (results : List LayerRecord) (mp : ℕ) :
    calcConstants results mp =
      (results.filter fun r => decide (mp < r.prime ∧ 0 < r.sum)).map
        fun r => cFormula r.prime r.sum := by
  rw [calcConstants]
  suffices h : ∀ acc : List ℝ, results.foldl
      (fun acc r => if (mp : ℕ) < r.prime ∧ 0 < r.sum then
        acc ++ [cFormula r.prime r.sum] else acc) acc =
      acc ++ (results.filter fun r => decide (mp < r.prime ∧ 0 < r.sum)).map
        (fun r => cFormula r.prime r.sum) by
    simpa using h []
  induction results with
  | nil =>
    intro acc
    simp
  | cons r l ih =>
    intro acc
    rw [List.foldl_cons, List.filter_cons]
    by_cases hc : mp < r.prime ∧ 0 < r.sum
    · rw [if_pos hc, ih]
      simp [hc]
    · rw [if_neg hc, ih]
      simp [hc]

theorem length_filter_two_le (n : ℕ) :
    ((List.range n).filter fun i => decide (2 ≤ i)).length = n - 2 := by
  induction n with
  | zero => rfl
  | succ n ih =>
    rw [List.range_succ, List.filter_append, List.length_append, ih]
    by_cases h : 2 ≤ n
    · rw [show (List.filter (fun i => decide (2 ≤ i)) [n]).length = 1 from by
        simp [h]]
      omega
    · rw [show (List.filter (fun i => decide (2 ≤ i)) [n]).length = 0 from by
        simp [h]]
      omega

theorem specRecords_filter_k (n : ℕ) :
    ((specRecords n).filter fun r => decide (3 ≤ r.k)) =
      ((List.range n).filter fun i => decide (2 ≤ i)).map recordOf := by
  rw [specRecords, List.filter_map]
  congr 1
  apply List.filter_congr
  intro i _
  show decide (3 ≤ (recordOf i).k) = decide (2 ≤ i)
  have hk : (recordOf i).k = i + 1 := rfl
  rw [hk]
  by_cases h : 2 ≤ i
  · rw [decide_eq_true (show 3 ≤ i + 1 by omega), decide_eq_true h]
  · rw [decide_eq_false (show ¬ 3 ≤ i + 1 by omega), decide_eq_false h]

/-! ## The claims -/

/-- C2: every record produced by the decomposition engine from the first `n`
primes satisfies the exact integer identity `prime = void + sum`. -/
theorem c2_prime_eq_void_add_sum (n : ℕ) (r : LayerRecord)
    (hr : r ∈ compute_layers (generate_primes n)) :
    (r.prime : ℤ) = (r.void : ℤ) + r.sum := by
  rw [compute_layers_eq] at hr
  obtain ⟨i, _, rfl⟩ := mem_specRecords.mp hr
  show (Nat.nth Nat.Prime i : ℤ) =
    (voidOf i : ℤ) + ((Nat.nth Nat.Prime i : ℤ) - (voidOf i : ℤ))
  ring

/-- Witness for C2 at `n = 1`: the single record for the prime 2. -/
theorem c2_witness :
    mkRecord 1 2 1 ∈ compute_layers (generate_primes 1) ∧
      ((mkRecord 1 2 1).prime : ℤ) =
        ((mkRecord 1 2 1).void : ℤ) + (mkRecord 1 2 1).sum := by
  have hmem : mkRecord 1 2 1 ∈ compute_layers (generate_primes 1) := by
    rw [show generate_primes 1 = [2] from by decide]
    simp [compute_layers, layerFold, layerStep, List.enumFrom]
  exact ⟨hmem, c2_prime_eq_void_add_sum 1 (mkRecord 1 2 1) hmem⟩

/-- C4: `verify_bijection` inspects exactly the records of rank `k ≥ 3`,
counts a match when the record's void equals the composite at 0-indexed
position `k - 3`, returns the number of inspected records as `total`, the
match count, `accuracy = 100 * matches / total` (0 when no record was
inspected), and the full list of mismatching ranks with their void and
expected composite — not only the first five. -/
theorem c4_verify_bijection_interface (results : List LayerRecord)
    (composites : List ℕ) :
    verify_bijection results composites =
      { total := (results.filter fun r => decide (3 ≤ r.k)).length
        matched := (results.filter fun r => decide (3 ≤ r.k) &&
          decide (r.void = composites.getD (r.k - 3) 0)).length
        accuracy :=
          if 0 < (results.filter fun r => decide (3 ≤ r.k)).length then
            100 * ((results.filter fun r => decide (3 ≤ r.k) &&
                decide (r.void = composites.getD (r.k - 3) 0)).length : ℚ) /
              (((results.filter fun r => decide (3 ≤ r.k)).length : ℕ) : ℚ)
          else 0
        mismatches := (results.filter fun r => decide (3 ≤ r.k) &&
            decide (¬ r.void = composites.getD (r.k - 3) 0)).map
          fun r => (r.k, r.void, composites.getD (r.k - 3) 0) } :=
  verify_bijection_eq results composites

/-- C5: `generate_primes n` is exactly the first `n` primes in increasing
order — length `n`, every element prime, strictly increasing, empty for
`n = 0`, and the concrete value for `n = 10`. -/
theorem c5_generate_primes_first_n :
    (∀ n : ℕ, generate_primes n = (List.range n).map (Nat.nth Nat.Prime) ∧
      (generate_primes n).length = n ∧
      (∀ x ∈ generate_primes n, Nat.Prime x) ∧
      List.Pairwise (· < ·) (generate_primes n)) ∧
    generate_primes 0 = [] ∧
    generate_primes 10 = [2, 3, 5, 7, 11, 13, 17, 19, 23, 29] := by
  have hmain : ∀ n : ℕ, generate_primes n = (List.range n).map (Nat.nth Nat.Prime) :=
    fun n => generate_primes_eq n
  refine ⟨fun n => ⟨hmain n, ?_, ?_, ?_⟩, ?_, ?_⟩
  · rw [hmain n]
    simp
  · intro x hx
    rw [hmain n, List.mem_map] at hx
    obtain ⟨i, _, rfl⟩ := hx
    exact nth_prime_mem i
  · rw [hmain n]
    exact List.Pairwise.map (Nat.nth Nat.Prime)
      (fun a b hab => nth_prime_lt_iff.mpr hab) (List.pairwise_lt_range n)
  · rw [hmain 0]
    rfl
  · rw [hmain 10]
    have h := filter_range_eq_map_nth Nat.Prime 30
    rw [show Nat.count Nat.Prime 30 = 10 from by decide] at h
    rw [← h]
    decide

/-- C6: `generate_composites n` is exactly the first `n` composites (integers
`≥ 4` that are not prime) in increasing order starting at 4 — length `n`,
all composite, strictly increasing, empty for `n = 0`, and the concrete
value for `n = 10`. -/
theorem c6_generate_composites_first_n :
    (∀ n : ℕ, generate_composites n = (List.range n).map (Nat.nth IsComposite) ∧
      (generate_composites n).length = n ∧
      (∀ x ∈ generate_composites n, 4 ≤ x ∧ ¬ Nat.Prime x) ∧
      List.Pairwise (· < ·) (generate_composites n)) ∧
    generate_composites 0 = [] ∧
    generate_composites 10 = [4, 6, 8, 9, 10, 12, 14, 15, 16, 18] := by
  have hmain : ∀ n : ℕ,
      generate_composites n = (List.range n).map (Nat.nth IsComposite) :=
    fun n => generate_composites_eq n
  refine ⟨fun n => ⟨hmain n, ?_, ?_, ?_⟩, ?_, ?_⟩
  · rw [hmain n]
    simp
  · intro x hx
    rw [hmain n, List.mem_map] at hx
    obtain ⟨i, _, rfl⟩ := hx
    exact nth_comp_mem i
  · rw [hmain n]
    exact List.Pairwise.map (Nat.nth IsComposite)
      (fun a b hab => nth_comp_lt_iff.mpr hab) (List.pairwise_lt_range n)
  · rw [hmain 0]
    rfl
  · decide

/-- C9: the pipeline is a pure deterministic function — two runs with the
same `n_primes` are equal, equal prime lists give equal record sequences —
and the void search depends only on the membership predicate of the
used-endpoints collection, never on the order in which an unordered set
container happens to enumerate its elements (stated both for
membership-equivalent and for permuted endpoint lists). -/
theorem c9_pipeline_deterministic :
    (∀ n : ℕ, LayerSystem.init n = LayerSystem.init n) ∧
    (∀ primes1 primes2 : List ℕ, primes1 = primes2 →
      compute_layers primes1 = compute_layers primes2) ∧
    (∀ E1 E2 : List ℕ, (∀ w, w ∈ E1 ↔ w ∈ E2) → findVoid E1 = findVoid E2) ∧
    (∀ E1 E2 : List ℕ, List.Perm E1 E2 → findVoid E1 = findVoid E2) := by
  refine ⟨fun _ => rfl, fun _ _ h => by rw [h], findVoid_mem_ext, ?_⟩
  intro E1 E2 hperm
  exact findVoid_mem_ext E1 E2 fun w => hperm.mem_iff

/-- C10: on the genuine prime input every record has `1 ≤ void < prime`,
hence `sum = prime - void > 0`, and the ratio field is always the defined
`some (prime / sum)` — never the `none` flag: the defensive `sum = 0` guard
is unreachable on the real pipeline. -/
theorem c10_ratio_never_none (n : ℕ) (r : LayerRecord)
    (hr : r ∈ compute_layers (generate_primes n)) :
    1 ≤ r.void ∧ r.void < r.prime ∧ 0 < r.sum ∧
      r.ratioVal = some ((r.prime : ℚ) / (r.sum : ℚ)) ∧ r.ratioVal ≠ none := by
  rw [compute_layers_eq] at hr
  obtain ⟨i, _, rfl⟩ := mem_specRecords.mp hr
  have h1 : 1 ≤ (recordOf i).void := voidOf_pos i
  have h2 : (recordOf i).void < (recordOf i).prime := voidOf_lt_nth_prime i
  have h3 := recordOf_sum_pos i
  have h4 := recordOf_ratio i
  exact ⟨h1, h2, h3, h4, by rw [h4]; exact fun h => Option.noConfusion h⟩

/-- Witness for C10 at `n = 1`. -/
theorem c10_witness :
    mkRecord 1 2 1 ∈ compute_layers (generate_primes 1) ∧
      1 ≤ (mkRecord 1 2 1).void ∧
      (mkRecord 1 2 1).void < (mkRecord 1 2 1).prime ∧
      0 < (mkRecord 1 2 1).sum ∧
      (mkRecord 1 2 1).ratioVal =
        some (((mkRecord 1 2 1).prime : ℚ) / ((mkRecord 1 2 1).sum : ℚ)) ∧
      (mkRecord 1 2 1).ratioVal ≠ none := by
  have hmem : mkRecord 1 2 1 ∈ compute_layers (generate_primes 1) := by
    rw [show generate_primes 1 = [2] from by decide]
    simp [compute_layers, layerFold, layerStep, List.enumFrom]
  obtain ⟨h1, h2, h3, h4, h5⟩ := c10_ratio_never_none 1 (mkRecord 1 2 1) hmem
  exact ⟨hmem, h1, h2, h3, h4, h5⟩

theorem LayerSystem_init_results (n : ℕ) :
    (LayerSystem.init n).results = compute_layers (generate_primes n) := rfl

theorem LayerSystem_init_composites (n : ℕ) :
    (LayerSystem.init n).composites = generate_composites n := rfl

/-- C3: for `n_primes = 1000` the bijection check reports 998 tested records
(ranks 3 … 1000), 998 matches, accuracy exactly `100.0`, and an empty
mismatch list: for every rank `k ≥ 3` the record's void equals the
composite at 0-indexed position `k - 3`. -/
theorem c3_bijection_thousand :
    verify_bijection (LayerSystem.init 1000).results
        (LayerSystem.init 1000).composites =
      { total := 998, matched := 998, accuracy := 100, mismatches := [] } := by
  rw [LayerSystem_init_results, LayerSystem_init_composites,
    compute_layers_eq, generate_composites_eq, verify_bijection_eq]
  have hveq : ∀ i : ℕ, 2 ≤ i → i < 1000 →
      (recordOf i).void = (compositesSeq 1000).getD ((recordOf i).k - 3) 0 := by
    intro i h2 hi
    have hv : (recordOf i).void = voidOf i := rfl
    have hk : (recordOf i).k = i + 1 := rfl
    rw [hv, hk, voidOf_eq_nth h2,
      compositesSeq_getD (show i + 1 - 3 < 1000 by omega)]
    congr 1
  have hmatch : ∀ r ∈ specRecords 1000,
      (decide (3 ≤ r.k) &&
        decide (r.void = (compositesSeq 1000).getD (r.k - 3) 0)) =
      decide (3 ≤ r.k) := by
    intro r hr
    obtain ⟨i, hi, rfl⟩ := mem_specRecords.mp hr
    have hk : (recordOf i).k = i + 1 := rfl
    by_cases h2 : 2 ≤ i
    · rw [decide_eq_true (show (3:ℕ) ≤ (recordOf i).k from by rw [hk]; omega),
        decide_eq_true (hveq i h2 hi), Bool.true_and]
    · rw [decide_eq_false (show ¬ (3:ℕ) ≤ (recordOf i).k from by rw [hk]; omega),
        Bool.false_and]
  have hfeq : ((specRecords 1000).filter fun r => decide (3 ≤ r.k) &&
      decide (r.void = (compositesSeq 1000).getD (r.k - 3) 0)) =
      (specRecords 1000).filter fun r => decide (3 ≤ r.k) :=
    List.filter_congr hmatch
  have hmis : ((specRecords 1000).filter fun r => decide (3 ≤ r.k) &&
      decide (¬ r.void = (compositesSeq 1000).getD (r.k - 3) 0)) = [] := by
    rw [List.filter_eq_nil_iff]
    intro r hr
    obtain ⟨i, hi, rfl⟩ := mem_specRecords.mp hr
    rw [Bool.and_eq_true, decide_eq_true_eq, decide_eq_true_eq]
    rintro ⟨h3, hne⟩
    have hk : (recordOf i).k = i + 1 := rfl
    have h2 : 2 ≤ i := by rw [hk] at h3; omega
    exact hne (hveq i h2 hi)
  have hlen : ((specRecords 1000).filter fun r => decide (3 ≤ r.k)).length
      = 998 := by
    rw [specRecords_filter_k, List.length_map, length_filter_two_le]
  rw [hfeq, hmis, hlen]
  simp only [BijectionResult.mk.injEq, List.map_nil]
  norm_num

/-- C1: for every rank `k ≥ 3` (with `k ≤ n`), the void assigned to the
`k`-th prime is the least positive integer not in the used-endpoints set
accumulated over all smaller ranks (which contains every earlier void and
every earlier prime); after the assignment both the void and the current
prime are inserted; the first two primes are hard-coded (`2 ↦ 1`,
`3 ↦ 2`); consequently the rank-`k` void collides with no void of rank
`< k` and no prime of rank `≤ k`. -/
theorem c1_void_least_unused (n k : ℕ) (hk3 : 3 ≤ k) (hkn : k ≤ n) :
    ((compute_layers (generate_primes n)).getD 0 default = mkRecord 1 2 1 ∧
      (compute_layers (generate_primes n)).getD 1 default = mkRecord 2 3 2) ∧
    (1 ≤ ((compute_layers (generate_primes n)).getD (k - 1) default).void ∧
      ((compute_layers (generate_primes n)).getD (k - 1) default).void ∉
        (layerState (generate_primes n) (k - 1)).1 ∧
      ∀ w, 1 ≤ w →
        w < ((compute_layers (generate_primes n)).getD (k - 1) default).void →
        w ∈ (layerState (generate_primes n) (k - 1)).1) ∧
    (∀ j, 1 ≤ j → j < k →
      ((compute_layers (generate_primes n)).getD (j - 1) default).void ∈
        (layerState (generate_primes n) (k - 1)).1 ∧
      ((compute_layers (generate_primes n)).getD (j - 1) default).prime ∈
        (layerState (generate_primes n) (k - 1)).1) ∧
    (∀ w, w ∈ (layerState (generate_primes n) k).1 ↔
      (w = ((compute_layers (generate_primes n)).getD (k - 1) default).void ∨
        w = ((compute_layers (generate_primes n)).getD (k - 1) default).prime ∨
        w ∈ (layerState (generate_primes n) (k - 1)).1)) ∧
    (∀ j, 1 ≤ j → j < k →
      ((compute_layers (generate_primes n)).getD (k - 1) default).void ≠
        ((compute_layers (generate_primes n)).getD (j - 1) default).void) ∧
    (∀ j, 1 ≤ j → j ≤ k →
      ((compute_layers (generate_primes n)).getD (k - 1) default).void ≠
        ((compute_layers (generate_primes n)).getD (j - 1) default).prime) := by
  obtain ⟨m, rfl⟩ : ∃ m, k = m + 3 := ⟨k - 3, by omega⟩
  have hRn : compute_layers (generate_primes n) = specRecords n :=
    compute_layers_eq n
  have hget : ∀ i : ℕ, i < n →
      (compute_layers (generate_primes n)).getD i default = recordOf i := by
    intro i hi
    rw [hRn]
    exact specRecords_getD hi
  have hgetk : (compute_layers (generate_primes n)).getD (m + 3 - 1) default =
      recordOf (m + 2) := hget (m + 3 - 1) (by omega)
  have hstate1 : ∀ w, w ∈ (layerState (generate_primes n) (m + 3 - 1)).1 ↔
      w ∈ endpointSet (m + 2) := by
    intro w
    rw [show ((m + 3 - 1 : ℕ)) = m + 2 from rfl,
      layerState_eq (m + 2) (by omega)]
    exact (layerFold_spec (m + 2)).2 w
  have hvoidk : ((compute_layers (generate_primes n)).getD (m + 3 - 1)
      default).void = Nat.nth IsComposite m := by
    rw [hgetk]
    rfl
  have hprimek : ((compute_layers (generate_primes n)).getD (m + 3 - 1)
      default).prime = Nat.nth Nat.Prime (m + 2) := by
    rw [hgetk]
    rfl
  refine ⟨⟨?_, ?_⟩, ⟨?_, ?_, ?_⟩, ?_, ?_, ?_, ?_⟩
  · rw [hget 0 (by omega)]
    show mkRecord 1 (Nat.nth Nat.Prime 0) (voidOf 0) = mkRecord 1 2 1
    rw [nth_prime_zero]
    rfl
  · rw [hget 1 (by omega)]
    show mkRecord 2 (Nat.nth Nat.Prime 1) (voidOf 1) = mkRecord 2 3 2
    rw [nth_prime_one]
    rfl
  · rw [hvoidk]
    have := nth_comp_ge_four m
    omega
  · rw [hvoidk]
    intro hmem
    exact (mex_endpointSet m).1 ((hstate1 _).mp hmem)
  · intro w h1 hlt
    rw [hvoidk] at hlt
    exact (hstate1 w).mpr ((mex_endpointSet m).2 w h1 hlt)
  · intro j hj1 hj2
    have hgj : (compute_layers (generate_primes n)).getD (j - 1) default =
        recordOf (j - 1) := hget (j - 1) (by omega)
    rw [hgj]
    have hv : (recordOf (j - 1)).void = voidOf (j - 1) := rfl
    have hp : (recordOf (j - 1)).prime = Nat.nth Nat.Prime (j - 1) := rfl
    rw [hv, hp, hstate1, hstate1, mem_endpointSet_succ_succ,
      mem_endpointSet_succ_succ]
    constructor
    · exact Or.inl ⟨voidOf_pos _, voidOf_mono (show j - 1 ≤ m + 1 by omega)⟩
    · exact Or.inr ⟨nth_prime_mem _, nth_prime_le_iff.mpr (by omega)⟩
  · intro w
    have hfs : layerFold (primesSeq (m + 3)) =
        layerStep (layerFold (primesSeq (m + 2)))
          (m + 3, Nat.nth Nat.Prime (m + 2)) := layerFold_succ (m + 2)
    have hp5 : 5 ≤ Nat.nth Nat.Prime (m + 2) := nth_prime_ge_five (by omega)
    have hvoid : findVoid (layerFold (primesSeq (m + 2))).1 =
        Nat.nth IsComposite m :=
      findVoid_eq_of_memEquiv _ (endpointSet (m + 2))
        (layerFold_spec (m + 2)).2 (Nat.nth IsComposite m)
        (by have := nth_comp_ge_four m; omega)
        (mex_endpointSet m).1 (mex_endpointSet m).2
    rw [layerState_eq (m + 3) (by omega), hfs,
      show layerFold (primesSeq (m + 2)) =
        ((layerFold (primesSeq (m + 2))).1,
          (layerFold (primesSeq (m + 2))).2) from rfl,
      layerStep_def, if_neg (by omega), if_neg (by omega)]
    show w ∈ ((layerFold (primesSeq (m + 2))).1.insert
        (findVoid (layerFold (primesSeq (m + 2))).1)).insert
        (Nat.nth Nat.Prime (m + 2)) ↔ _
    rw [List.mem_insert_iff, List.mem_insert_iff, hvoid, hvoidk, hprimek]
    have hst : ∀ v : Prop, (w ∈ (layerFold (primesSeq (m + 2))).1 ↔ v) →
        (w = Nat.nth Nat.Prime (m + 2) ∨ w = Nat.nth IsComposite m ∨
          w ∈ (layerFold (primesSeq (m + 2))).1 ↔
        (w = Nat.nth IsComposite m ∨ w = Nat.nth Nat.Prime (m + 2) ∨ v)) := by
      intro v hv
      rw [hv]
      tauto
    have hmemst : w ∈ (layerFold (primesSeq (m + 2))).1 ↔
        w ∈ (layerState (generate_primes n) (m + 3 - 1)).1 := by
      rw [hstate1 w]
      exact (layerFold_spec (m + 2)).2 w
    exact hst _ hmemst
  · intro j hj1 hj2
    rw [hvoidk, hget (j - 1) (by omega)]
    have hv : (recordOf (j - 1)).void = voidOf (j - 1) := rfl
    rw [hv]
    have h1 : voidOf (j - 1) ≤ voidOf (m + 1) :=
      voidOf_mono (show j - 1 ≤ m + 1 by omega)
    have h2 := voidOf_lt_nth_comp m
    omega
  · intro j hj1 hj2
    rw [hvoidk, hget (j - 1) (by omega)]
    have hp : (recordOf (j - 1)).prime = Nat.nth Nat.Prime (j - 1) := rfl
    rw [hp]
    intro heq
    exact nth_comp_not_prime m (heq ▸ nth_prime_mem (j - 1))

/-- Witness for C1 at `n = 3`, `k = 3` (prime 5, void 4). -/
theorem c1_witness :
    (3 ≤ 3 ∧ 3 ≤ 3) ∧
      1 ≤ ((compute_layers (generate_primes 3)).getD (3 - 1) default).void ∧
      ((compute_layers (generate_primes 3)).getD (3 - 1) default).void ∉
        (layerState (generate_primes 3) (3 - 1)).1 := by
  have h := c1_void_least_unused 3 3 (le_refl 3) (le_refl 3)
  exact ⟨⟨le_refl 3, le_refl 3⟩, h.2.1.1, h.2.1.2.1⟩

/-- C8: for every record the engine produces (on an arbitrary input list) the
ratio field is `some (prime / sum)` exactly when `sum > 0`, and the explicit
`none` flag otherwise; and the statistics layer's `constants` list is built
from exactly the records with `prime > min_prime` and `sum > 0`, so the
formula is never applied to (never divides by) a record with `sum ≤ 0`. -/
theorem c8_ratio_undefined_flag (primes : List ℕ) (r : LayerRecord)
    (hr : r ∈ compute_layers primes) (mp : ℕ) :
    (0 < r.sum → r.ratioVal = some ((r.prime : ℚ) / (r.sum : ℚ))) ∧
    (r.sum ≤ 0 → r.ratioVal = none) ∧
    calcConstants (compute_layers primes) mp =
      ((compute_layers primes).filter fun s =>
        decide (mp < s.prime ∧ 0 < s.sum)).map
        (fun s => cFormula s.prime s.sum) ∧
    (r.sum ≤ 0 → r ∉ (compute_layers primes).filter fun s =>
      decide (mp < s.prime ∧ 0 < s.sum)) := by
  obtain ⟨k, p, v, rfl⟩ := compute_layers_shape primes r hr
  refine ⟨fun hs => mkRecord_ratio_pos hs, fun hs => mkRecord_ratio_nonpos hs,
    calcConstants_eq _ mp, fun hs hmem => ?_⟩
  rw [List.mem_filter] at hmem
  have hcond := of_decide_eq_true hmem.2
  exact absurd hcond.2 (not_lt.mpr hs)

/-- Witness for C8: the adversarial input `[2, 3, 1]` produces a record with
`sum = -3 ≤ 0` whose ratio is the explicit `none` flag. -/
theorem c8_witness :
    mkRecord 3 1 4 ∈ compute_layers [2, 3, 1] ∧
      ((mkRecord 3 1 4).sum ≤ 0 → (mkRecord 3 1 4).ratioVal = none) ∧
      (mkRecord 3 1 4).ratioVal = none := by
  have hmem : mkRecord 3 1 4 ∈ compute_layers [2, 3, 1] := by
    simp [compute_layers, layerFold, layerStep, List.enumFrom, List.insert,
      findVoid, findVoidAux]
  have h := (c8_ratio_undefined_flag [2, 3, 1] (mkRecord 3 1 4) hmem 1000).2.1
  exact ⟨hmem, h, h (by decide)⟩

/-- C7 (amended): `calculate_constant` computes
`c = (prime/sum - 1) * ln(prime) * ln(ln(prime))` for exactly the records
with `prime > min_prime` and `sum > 0` and returns their average (`0.0`
when no record qualifies); the population standard deviation of the same
values (`calculate_constant_std`) is computed by the source only for
display and is not part of the return value. -/
theorem c7_calculate_constant_amended (results : List LayerRecord) (mp : ℕ) :
    calcConstants results mp =
      (results.filter fun r => decide (mp < r.prime ∧ 0 < r.sum)).map
        (fun r => cFormula r.prime r.sum) ∧
    calculate_constant results mp =
      (if ((results.filter fun r => decide (mp < r.prime ∧ 0 < r.sum)).map
          (fun r => cFormula r.prime r.sum)).isEmpty then 0
        else ((results.filter fun r => decide (mp < r.prime ∧ 0 < r.sum)).map
            (fun r => cFormula r.prime r.sum)).sum /
          (((results.filter fun r => decide (mp < r.prime ∧ 0 < r.sum)).map
            (fun r => cFormula r.prime r.sum)).length : ℝ)) ∧
    calculate_constant_std results mp =
      Real.sqrt ((((results.filter fun r =>
          decide (mp < r.prime ∧ 0 < r.sum)).map
          (fun r => cFormula r.prime r.sum)).map fun c =>
            (c - ((results.filter fun r =>
              decide (mp < r.prime ∧ 0 < r.sum)).map
              (fun r => cFormula r.prime r.sum)).sum /
              (((results.filter fun r => decide (mp < r.prime ∧ 0 < r.sum)).map
                (fun r => cFormula r.prime r.sum)).length : ℝ)) ^ 2).sum /
        (((results.filter fun r => decide (mp < r.prime ∧ 0 < r.sum)).map
          (fun r => cFormula r.prime r.sum)).length : ℝ)) := by
  have hc := calcConstants_eq results mp
  refine ⟨hc, ?_, ?_⟩
  · show (if (calcConstants results mp).isEmpty then (0:ℝ)
      else (calcConstants results mp).sum /
        ((calcConstants results mp).length : ℝ)) = _
    rw [hc]
  · show Real.sqrt (((calcConstants results mp).map fun c =>
        (c - (calcConstants results mp).sum /
          ((calcConstants results mp).length : ℝ)) ^ 2).sum /
        ((calcConstants results mp).length : ℝ)) = _
    rw [hc]

/-- C7 fails as stated: the source `calculate_constant` returns only the
average — the population standard deviation is computed for console display
but is not returned.  Concretely, two record lists with equal averages but
different standard deviations receive the same value from the source
function while the spec-required `(average, std_dev)` results differ, so
the source's return value cannot contain the standard deviation. -/
theorem c7_counterexample :
    calculate_constant [mkRecord 1 3000 2000] 1000 =
        calculate_constant [mkRecord 1 3000 1500, mkRecord 2 3000 2250] 1000 ∧
      calculate_constant_spec [mkRecord 1 3000 2000] 1000 ≠
        calculate_constant_spec [mkRecord 1 3000 1500, mkRecord 2 3000 2250]
          1000 := by
  have hA : 0 < Real.log 3000 * Real.log (Real.log 3000) := by
    have h1 : (1 : ℝ) < Real.log 3000 :=
      (Real.lt_log_iff_exp_lt (by norm_num)).mpr
        (lt_trans Real.exp_one_lt_d9 (by norm_num))
    exact mul_pos (lt_trans one_pos h1) (Real.log_pos h1)
  have hc1 : cFormula 3000 1000 =
      2 * (Real.log 3000 * Real.log (Real.log 3000)) := by
    rw [cFormula]
    push_cast
    norm_num
    ring
  have hc2 : cFormula 3000 1500 =
      1 * (Real.log 3000 * Real.log (Real.log 3000)) := by
    rw [cFormula]
    push_cast
    norm_num
  have hc3 : cFormula 3000 750 =
      3 * (Real.log 3000 * Real.log (Real.log 3000)) := by
    rw [cFormula]
    push_cast
    norm_num
    ring
  have hl1 : calcConstants [mkRecord 1 3000 2000] 1000 =
      [cFormula 3000 1000] := by
    rw [calcConstants_eq, List.filter_cons, if_pos (by decide), List.filter_nil]
    show [cFormula (mkRecord 1 3000 2000).prime (mkRecord 1 3000 2000).sum] = _
    norm_num [mkRecord]
  have hl2 : calcConstants [mkRecord 1 3000 1500, mkRecord 2 3000 2250] 1000 =
      [cFormula 3000 1500, cFormula 3000 750] := by
    rw [calcConstants_eq, List.filter_cons, if_pos (by decide),
      List.filter_cons, if_pos (by decide), List.filter_nil]
    show [cFormula (mkRecord 1 3000 1500).prime (mkRecord 1 3000 1500).sum,
      cFormula (mkRecord 2 3000 2250).prime (mkRecord 2 3000 2250).sum] = _
    norm_num [mkRecord]
  have havg1 : calculate_constant [mkRecord 1 3000 2000] 1000 =
      2 * (Real.log 3000 * Real.log (Real.log 3000)) := by
    show (if (calcConstants [mkRecord 1 3000 2000] 1000).isEmpty then (0:ℝ)
      else (calcConstants [mkRecord 1 3000 2000] 1000).sum /
        ((calcConstants [mkRecord 1 3000 2000] 1000).length : ℝ)) = _
    rw [hl1, hc1]
    norm_num
  have havg2 : calculate_constant
      [mkRecord 1 3000 1500, mkRecord 2 3000 2250] 1000 =
      2 * (Real.log 3000 * Real.log (Real.log 3000)) := by
    show (if (calcConstants [mkRecord 1 3000 1500, mkRecord 2 3000 2250]
        1000).isEmpty then (0:ℝ)
      else (calcConstants [mkRecord 1 3000 1500, mkRecord 2 3000 2250]
          1000).sum /
        ((calcConstants [mkRecord 1 3000 1500, mkRecord 2 3000 2250]
          1000).length : ℝ)) = _
    rw [hl2, hc2, hc3]
    norm_num
    ring
  have hstd1 : calculate_constant_std [mkRecord 1 3000 2000] 1000 = 0 := by
    show Real.sqrt (((calcConstants [mkRecord 1 3000 2000] 1000).map fun c =>
        (c - (calcConstants [mkRecord 1 3000 2000] 1000).sum /
          ((calcConstants [mkRecord 1 3000 2000] 1000).length : ℝ)) ^ 2).sum /
        ((calcConstants [mkRecord 1 3000 2000] 1000).length : ℝ)) = 0
    rw [hl1]
    norm_num
  have hstd2 : calculate_constant_std
      [mkRecord 1 3000 1500, mkRecord 2 3000 2250] 1000 =
      Real.log 3000 * Real.log (Real.log 3000) := by
    show Real.sqrt (((calcConstants [mkRecord 1 3000 1500, mkRecord 2 3000 2250]
        1000).map fun c =>
        (c - (calcConstants [mkRecord 1 3000 1500, mkRecord 2 3000 2250]
          1000).sum /
          ((calcConstants [mkRecord 1 3000 1500, mkRecord 2 3000 2250]
            1000).length : ℝ)) ^ 2).sum /
        ((calcConstants [mkRecord 1 3000 1500, mkRecord 2 3000 2250]
          1000).length : ℝ)) = _
    rw [hl2, hc2, hc3]
    conv_rhs => rw [show Real.log 3000 * Real.log (Real.log 3000) =
      Real.sqrt ((Real.log 3000 * Real.log (Real.log 3000)) ^ 2) from
      (Real.sqrt_sq (le_of_lt hA)).symm]
    congr 1
    simp only [List.map_cons, List.map_nil, List.sum_cons, List.sum_nil,
      List.length_cons, List.length_nil]
    push_cast
    ring
  constructor
  · rw [havg1, havg2]
  · intro heq
    have h2 : calculate_constant_std [mkRecord 1 3000 2000] 1000 =
        calculate_constant_std [mkRecord 1 3000 1500, mkRecord 2 3000 2250]
          1000 := congrArg Prod.snd heq
    rw [hstd1, hstd2] at h2
    exact absurd h2.symm (ne_of_gt hA)

end PrimeLayer
